import Mathlib

/-!
Verification of the chained hashmap in `src/linked_list_hashmap.c`.

Embedding conventions:
* Keys and values are opaque caller handles (`void *`); a handle is modelled
  as `Option K` / `Option V`, with `none` playing the role of `NULL`.
* A bucket slot (`hash_node_t` living inline in `h->array`) is a
  `hash_slot`: its own entry plus its overflow chain.  The chain, a
  singly-linked list of heap nodes in C, is modelled as a Lean list of
  `hash_node`s.  Each chain node carries an `id : Nat`, the model of its
  heap address: `free` makes the id disappear from the map, and following a
  pointer to a freed node (a dangling `cur_linked` in the iterator) is
  modelled by a failed id lookup, i.e. the operation returns `none`,
  marking undefined behaviour.
* `calloc` of the array yields empty slots; `__allocnodes(1)` for a chain
  node yields a fresh id (`nextId`), incremented on each allocation.
* The C `assert` statements are compiled out (`NDEBUG` semantics): they do
  not alter the functional behaviour modelled here.
* `hashmap_put` and `hashmap_increase_capacity` are mutually recursive in C
  (growing replays every entry through `hashmap_put`, whose
  `__ensurecapacity` may grow again).  The embedding uses a fuel parameter
  `putF fuel`; fuel exhaustion returns `none`.  Lemmas below show that the
  fuel chosen by the argumentless wrappers always suffices on well-formed
  maps, so the fuel is an artifact of totality, not of the semantics.
* The load-factor test `(float) h->count / h->arraySize < 0.5` is modelled
  exactly as `2 * count < arraySize`; for the integer ranges the map
  maintains (`count` and `arraySize` far below 2^24) the float division is
  exact enough that both tests agree.
-/

namespace LinkedListHashmap

/-- `hash_entry_t`: a key/value pair of caller handles. -/
structure hash_entry (K V : Type) where
  key : Option K
  val : Option V
deriving Repr, DecidableEq

/-- A heap-allocated chain node (`hash_node_t` reached via `next`): its
address is modelled by `id`. -/
structure hash_node (K V : Type) where
  id : Nat
  ety : hash_entry K V
deriving Repr, DecidableEq

/-- One cell of `h->array`: the root entry plus the chain hanging off its
`next` pointer (as the list of reachable chain nodes, in link order). -/
structure hash_slot (K V : Type) where
  ety : hash_entry K V
  chain : List (hash_node K V)
deriving Repr, DecidableEq

/-- `hashmap_t`.  The hash and compare callbacks are passed to each
operation explicitly (they are fixed at creation in C and never change).
`nextId` is the allocator state: the next fresh chain-node address. -/
structure hashmap_t (K V : Type) where
  arraySize : Nat
  array : List (hash_slot K V)
  count : Int
  nextId : Nat
deriving Repr, DecidableEq

/-- An iterator (`hashmap_iterator_t`): bucket index plus an optional
pointer (modelled as a node id) to the next chain node to visit. -/
structure hashmap_iterator_t where
  cur : Nat
  cur_linked : Option Nat
deriving Repr, DecidableEq

variable {K V : Type}

/-- A slot as produced by `calloc`: null key, null value, no chain. -/
def emptySlot : hash_slot K V := ⟨⟨none, none⟩, []⟩

/-- `hashmap_new`. -/
def hashmap_new (initial_capacity : Nat) : hashmap_t K V :=
  { arraySize := initial_capacity
    array := List.replicate initial_capacity emptySlot
    count := 0
    nextId := 0 }

/-- `hashmap_count`. -/
def hashmap_count (h : hashmap_t K V) : Int := h.count

/-- `hashmap_size`. -/
def hashmap_size (h : hashmap_t K V) : Nat := h.arraySize

/-- `__doProbe`: `h->hash(key) % h->arraySize`. -/
def doProbe (hash : K → Nat) (h : hashmap_t K V) (key : K) : Nat :=
  hash key % h.arraySize

/-- The chain part of `hashmap_get`'s do-while loop, after the root entry
has been scanned.  The C code hands `node->ety.key` straight to the caller
comparator; a null key in a chain node (impossible on well-formed maps) is
treated as a mismatch. -/
def getChain (cmp : K → K → Int) (k : K) : List (hash_node K V) → Option V
  | [] => none
  | n :: rest =>
    match n.ety.key with
    | some k' => if cmp k k' = 0 then n.ety.val else getChain cmp k rest
    | none => getChain cmp k rest

/-- `hashmap_get`. -/
def hashmap_get (hash : K → Nat) (cmp : K → K → Int)
    (h : hashmap_t K V) (key : Option K) : Option V :=
  match key with
  | none => none
  | some k =>
    if hashmap_count h = 0 then none
    else
      match h.array.get? (doProbe hash h k) with
      | none => none
      | some node =>
        match node.ety.key with
        | none => none
        | some rk => if cmp k rk = 0 then node.ety.val else getChain cmp k node.chain

/-- `hashmap_contains_key`. -/
def hashmap_contains_key (hash : K → Nat) (cmp : K → K → Int)
    (h : hashmap_t K V) (key : Option K) : Bool :=
  (hashmap_get hash cmp h key).isSome

/-- The chain part of `hashmap_remove_entry`'s loop: find the first chain
node matching `k`, unlink it (`n_parent->next = n->next; free(n)`), and
return the new chain together with the removed entry. -/
def removeChain (cmp : K → K → Int) (k : K) :
    List (hash_node K V) → Option (List (hash_node K V) × hash_entry K V)
  | [] => none
  | n :: rest =>
    match n.ety.key with
    | some k' =>
      if cmp k k' = 0 then some (rest, n.ety)
      else
        match removeChain cmp k rest with
        | some (rest', e) => some (n :: rest', e)
        | none => none
    | none =>
      match removeChain cmp k rest with
      | some (rest', e) => some (n :: rest', e)
      | none => none

/-- `hashmap_remove_entry`.  Returns the updated map and the out-parameter
entry (`⟨none, none⟩` reports "not found").  The C function passes the raw
key to `h->hash`, so the embedded key is a plain `K`. -/
def hashmap_remove_entry (hash : K → Nat) (cmp : K → K → Int)
    (h : hashmap_t K V) (key : K) : hashmap_t K V × hash_entry K V :=
  let probe := doProbe hash h key
  match h.array.get? probe with
  | none => (h, ⟨none, none⟩)
  | some n =>
    match n.ety.key with
    | none => (h, ⟨none, none⟩)
    | some rk =>
      if cmp key rk = 0 then
        match n.chain with
        | tmp :: rest =>
          ({ h with
              array := h.array.set probe ⟨tmp.ety, rest⟩
              count := h.count - 1 }, n.ety)
        | [] =>
          ({ h with
              array := h.array.set probe ⟨⟨none, n.ety.val⟩, []⟩
              count := h.count - 1 }, n.ety)
      else
        match removeChain cmp key n.chain with
        | some (chain', e) =>
          ({ h with
              array := h.array.set probe ⟨n.ety, chain'⟩
              count := h.count - 1 }, e)
        | none => (h, ⟨none, none⟩)

/-- `hashmap_remove`: convenience wrapper returning only the value. -/
def hashmap_remove (hash : K → Nat) (cmp : K → K → Int)
    (h : hashmap_t K V) (key : K) : hashmap_t K V × Option V :=
  let r := hashmap_remove_entry hash cmp h key
  (r.1, r.2.val)

/-- Entries freed and un-counted by `hashmap_clear` at one slot: the root
(one) plus every chain node, but only when the root key is non-null (the C
loop `continue`s over slots with a null root key, chain included). -/
def slotDrop (s : hash_slot K V) : Int :=
  if s.ety.key.isSome then 1 + s.chain.length else 0

/-- `hashmap_clear`: null out each occupied root key (the stale value
remains, as in C), free its chain, and decrement the count accordingly. -/
def hashmap_clear (h : hashmap_t K V) : hashmap_t K V :=
  { h with
    array := h.array.map fun s =>
      if s.ety.key.isSome then ⟨⟨none, s.ety.val⟩, []⟩ else s
    count := h.count - ((h.array.map slotDrop).sum) }

/-- The chain part of `hashmap_put`'s do-while loop, after the root entry
failed to match: replace the value of the first matching chain node, or
append a freshly allocated node (address `nid`) at the tail.  Returns the
new chain, the previous value, and whether a node was allocated (in which
case `__nodeassign` increments the count). -/
def putChain (cmp : K → K → Int) (k : K) (v : V) (nid : Nat) :
    List (hash_node K V) → List (hash_node K V) × Option V × Bool
  | [] => ([⟨nid, ⟨some k, some v⟩⟩], none, true)
  | n :: rest =>
    match n.ety.key with
    | some k' =>
      if cmp k k' = 0 then (⟨n.id, ⟨n.ety.key, some v⟩⟩ :: rest, n.ety.val, false)
      else
        let r := putChain cmp k v nid rest
        (n :: r.1, r.2)
    | none =>
      let r := putChain cmp k v nid rest
      (n :: r.1, r.2)

/-- The body of `hashmap_put` after `__ensurecapacity` has run: probe,
then assign the root slot, replace in place, or append to the chain.
Returns `none` only on an out-of-bounds array access (unreachable on
well-formed maps; undefined behaviour in C). -/
def putCore (hash : K → Nat) (cmp : K → K → Int)
    (h : hashmap_t K V) (k : K) (v : V) : Option (hashmap_t K V × Option V) :=
  let probe := doProbe hash h k
  match h.array.get? probe with
  | none => none
  | some node =>
    match node.ety.key with
    | none =>
      some ({ h with
          array := h.array.set probe ⟨⟨some k, some v⟩, node.chain⟩
          count := h.count + 1 }, none)
    | some rk =>
      if cmp k rk = 0 then
        some ({ h with
            array := h.array.set probe ⟨⟨node.ety.key, some v⟩, node.chain⟩ }, node.ety.val)
      else
        let r := putChain cmp k v h.nextId node.chain
        some ({ h with
            array := h.array.set probe ⟨node.ety, r.1⟩
            count := h.count + (if r.2.2 then 1 else 0)
            nextId := h.nextId + (if r.2.2 then 1 else 0) }, r.2.1)

/-- The replay loop of `hashmap_increase_capacity` over one old chain:
re-put every chain node's entry (freeing the node as it goes),
parameterized by the put function to use. -/
def replayChainWith (put1 : hashmap_t K V → Option K → Option V → Option (hashmap_t K V × Option V)) :
    List (hash_node K V) → hashmap_t K V → Option (hashmap_t K V)
  | [], acc => some acc
  | n :: rest, acc =>
    match put1 acc n.ety.key n.ety.val with
    | none => none
    | some (acc1, _) => replayChainWith put1 rest acc1

/-- The replay loop of `hashmap_increase_capacity` over the old array:
slots with a null root key are skipped whole (the C loop `continue`s
before touching the chain); otherwise the root entry and then each chain
node are re-put in order. -/
def replaySlotsWith (put1 : hashmap_t K V → Option K → Option V → Option (hashmap_t K V × Option V)) :
    List (hash_slot K V) → hashmap_t K V → Option (hashmap_t K V)
  | [], acc => some acc
  | s :: rest, acc =>
    match s.ety.key with
    | none => replaySlotsWith put1 rest acc
    | some _ =>
      match put1 acc s.ety.key s.ety.val with
      | none => none
      | some (acc1, _) =>
        match replayChainWith put1 s.chain acc1 with
        | none => none
        | some acc2 => replaySlotsWith put1 rest acc2

/-- `hashmap_increase_capacity`, parameterized by the put function used
for the replay: multiply the array size by `factor`, allocate a fresh
empty array, reset the count to zero, and re-put every old entry. -/
def increaseWith (put1 : hashmap_t K V → Option K → Option V → Option (hashmap_t K V × Option V))
    (h : hashmap_t K V) (factor : Nat) : Option (hashmap_t K V) :=
  replaySlotsWith put1 h.array
    { arraySize := h.arraySize * factor
      array := List.replicate (h.arraySize * factor) emptySlot
      count := 0
      nextId := h.nextId }

/-- `__ensurecapacity`: grow by a factor of 2 when `count / arraySize`
reaches the 0.5 threshold (see the header comment about the float test). -/
def ensureWith (put1 : hashmap_t K V → Option K → Option V → Option (hashmap_t K V × Option V))
    (h : hashmap_t K V) : Option (hashmap_t K V) :=
  if 2 * h.count < (h.arraySize : Int) then some h
  else increaseWith put1 h 2

/-- `hashmap_put`, with fuel bounding the depth of nested growth.  A null
key or null value is rejected before anything else, returning `NULL` and
leaving the map untouched. -/
def putF (hash : K → Nat) (cmp : K → K → Int) :
    Nat → hashmap_t K V → Option K → Option V → Option (hashmap_t K V × Option V)
  | 0, _, _, _ => none
  | fuel + 1, h, key, val_new =>
    match key, val_new with
    | some k, some v =>
      match ensureWith (fun h' key' val' => putF hash cmp fuel h' key' val') h with
      | none => none
      | some h1 => putCore hash cmp h1 k v
    | _, _ => some (h, none)

/-- `hashmap_put` with the fuel the lemmas below prove sufficient on any
well-formed map. -/
def hashmap_put (hash : K → Nat) (cmp : K → K → Int)
    (h : hashmap_t K V) (key : Option K) (val_new : Option V) :
    Option (hashmap_t K V × Option V) :=
  putF hash cmp (2 * h.count.natAbs + 3) h key val_new

/-- `hashmap_put_entry`. -/
def hashmap_put_entry (hash : K → Nat) (cmp : K → K → Int)
    (h : hashmap_t K V) (entry : hash_entry K V) : Option (hashmap_t K V × Option V) :=
  hashmap_put hash cmp h entry.key entry.val

/-- `hashmap_increase_capacity` (the public grow-by-factor entry point),
with sufficient fuel for the replay's nested growth. -/
def hashmap_increase_capacity (hash : K → Nat) (cmp : K → K → Int)
    (h : hashmap_t K V) (factor : Nat) : Option (hashmap_t K V) :=
  increaseWith (putF hash cmp (2 * h.count.natAbs + 3)) h factor

/-- `hashmap_iterator`: initialise a cursor. -/
def hashmap_iterator_begin : hashmap_iterator_t := ⟨0, none⟩

/-- The scan `for (; iter->cur < h->arraySize; iter->cur++)` shared by
`hashmap_iterator_peek` and `hashmap_iterator_next`: the final value of
`iter->cur`, i.e. the first index `≥ c` whose root key is non-null, or
the first index `≥ arraySize` reached (`c` itself if `c` already exceeds
the array).  A slot beyond the backing list (ill-formed map) reads as
empty. -/
def iterScanGo (h : hashmap_t K V) : Nat → Nat → Nat
  | 0, c => c
  | d + 1, c =>
    match h.array.get? c with
    | some s => if s.ety.key.isSome then c else iterScanGo h d (c + 1)
    | none => iterScanGo h d (c + 1)

/-- See `iterScanGo`: the loop runs `arraySize - c` times at most, once per
remaining index. -/
def iterScan (h : hashmap_t K V) (c : Nat) : Nat :=
  iterScanGo h (h.arraySize - c) c

/-- Dereference a chain-node pointer: find the (unique, on well-formed
maps) live node with this address anywhere in the map, returning it and
its successor's address.  `none` models a dangling-pointer dereference. -/
def findInChain (id : Nat) : List (hash_node K V) → Option (hash_node K V × Option Nat)
  | [] => none
  | n :: rest =>
    if n.id = id then some (n, (rest.head?).map (·.id)) else findInChain id rest

/-- See `findInChain`. -/
def derefNode (h : hashmap_t K V) (id : Nat) : Option (hash_node K V × Option Nat) :=
  h.array.findSome? fun s => findInChain id s.chain

/-- `hashmap_iterator_peek`.  Returns the peeked key (possibly `NULL` at
the end of the array) together with the updated cursor: the forward scan
of the no-chain-pointer case persists in `iter->cur`.  `none` = undefined
behaviour (dangling `cur_linked`). -/
def hashmap_iterator_peek (h : hashmap_t K V) (iter : hashmap_iterator_t) :
    Option (Option K × hashmap_iterator_t) :=
  match iter.cur_linked with
  | none =>
    let c := iterScan h iter.cur
    if c < h.arraySize then
      some ((h.array.get? c).bind (·.ety.key), ⟨c, none⟩)
    else
      some (none, ⟨c, none⟩)
  | some id =>
    match derefNode h id with
    | none => none
    | some (n, _) => some (n.ety.key, iter)

/-- `hashmap_iterator_peek_value`: look the peeked key up via
`hashmap_get`. -/
def hashmap_iterator_peek_value (hash : K → Nat) (cmp : K → K → Int)
    (h : hashmap_t K V) (iter : hashmap_iterator_t) :
    Option (Option V × hashmap_iterator_t) :=
  (hashmap_iterator_peek h iter).map fun r => (hashmap_get hash cmp h r.1, r.2)

/-- `hashmap_iterator_has_next`. -/
def hashmap_iterator_has_next (h : hashmap_t K V) (iter : hashmap_iterator_t) :
    Option (Bool × hashmap_iterator_t) :=
  (hashmap_iterator_peek h iter).map fun r => (r.1.isSome, r.2)

/-- `hashmap_iterator_next`.  Returns the yielded key (`none` at the end
of iteration) and the advanced cursor; the outer `none` marks undefined
behaviour (a dangling `cur_linked` dereference, or an out-of-bounds array
read when `iter->cur` already exceeds the array). -/
def hashmap_iterator_next (h : hashmap_t K V) (iter : hashmap_iterator_t) :
    Option (Option K × hashmap_iterator_t) :=
  match iter.cur_linked with
  | some id =>
    match h.array.get? iter.cur with
    | none => none
    | some n_parent =>
      match n_parent.chain with
      | [] =>
        -- the chain vanished from under the pointer: the node was promoted
        -- onto the array, so yield the root entry instead
        some (n_parent.ety.key, ⟨iter.cur + 1, none⟩)
      | _ :: _ =>
        match derefNode h id with
        | none => none
        | some (n, succ) =>
          some (n.ety.key, ⟨if succ.isNone then iter.cur + 1 else iter.cur, succ⟩)
  | none =>
    let c := iterScan h iter.cur
    if c = h.arraySize then some (none, ⟨c, none⟩)
    else
      match h.array.get? c with
      | none => none
      | some n =>
        match n.chain with
        | head :: _ => some (n.ety.key, ⟨c, some head.id⟩)
        | [] => some (n.ety.key, ⟨c + 1, none⟩)

/-- `hashmap_iterator_next_value`. -/
def hashmap_iterator_next_value (hash : K → Nat) (cmp : K → K → Int)
    (h : hashmap_t K V) (iter : hashmap_iterator_t) :
    Option (Option V × hashmap_iterator_t) :=
  (hashmap_iterator_next h iter).map fun r =>
    (match r.1 with
     | none => none
     | some k => hashmap_get hash cmp h (some k), r.2)

/-- Run the iterator to completion: call `hashmap_iterator_next`
repeatedly, collecting the yielded keys, until it reports the end of the
iteration (`NULL`).  Fuel bounds the number of calls; `none` means either
fuel exhaustion or an undefined-behaviour step. -/
def iterRun (h : hashmap_t K V) : Nat → hashmap_iterator_t → Option (List (Option K))
  | 0, _ => none
  | fuel + 1, it =>
    match hashmap_iterator_next h it with
    | none => none
    | some (none, _) => some []
    | some (some k, it') => (iterRun h fuel it').map (some k :: ·)

/- ### Abstraction: the entries a map holds, and a well-formedness
invariant satisfied by every map the API can build. -/

/-- The slot the C code reads at index `i` (out-of-range reads as an empty
slot; the invariant below rules that out). -/
def slotAt (h : hashmap_t K V) (i : Nat) : hash_slot K V :=
  h.array.getD i emptySlot

/-- The live entries held by one slot: none when the root key is null
(the chain is unreachable then), otherwise the root entry followed by the
chain entries in link order. -/
def slotEntries (s : hash_slot K V) : List (hash_entry K V) :=
  if s.ety.key.isSome then s.ety :: s.chain.map (·.ety) else []

/-- All live entries, in bucket order, root before chain. -/
def entriesList (h : hashmap_t K V) : List (hash_entry K V) :=
  (h.array.map slotEntries).flatten

/-- The keys of the live entries, as nullable handles. -/
def keysList (h : hashmap_t K V) : List (Option K) :=
  (entriesList h).map (·.key)

/-- The non-null keys of the live entries of one slot. -/
def slotKeys (s : hash_slot K V) : List K :=
  (slotEntries s).filterMap (·.key)

/-- The non-null keys of the live entries. -/
def keyList (h : hashmap_t K V) : List K :=
  (entriesList h).filterMap (·.key)

/-- The chain-node addresses currently allocated. -/
def chainIds (h : hashmap_t K V) : List Nat :=
  (h.array.map (fun s => s.chain.map (·.id))).flatten

/-- The first live entry whose key equals `k`. -/
def lookupEnt [DecidableEq K] (h : hashmap_t K V) (k : K) : Option (hash_entry K V) :=
  (entriesList h).find? (fun e => decide (e.key = some k))

/-- The value associated to `k`, through the abstraction. -/
def lookupVal [DecidableEq K] (h : hashmap_t K V) (k : K) : Option V :=
  (lookupEnt h k).bind (·.val)

/-- Local well-formedness of one slot: a null root key means a fully
empty slot, and every live entry carries non-null key and value. -/
abbrev SlotWF (s : hash_slot K V) : Prop :=
  (s.ety.key = none → s.chain = []) ∧
  (s.ety.key.isSome → s.ety.val.isSome) ∧
  (∀ n ∈ s.chain, n.ety.key.isSome ∧ n.ety.val.isSome)

/-- Well-formedness of a map.  Every map reachable through the API from
`hashmap_new` (with a positive initial size and a hash consistent with
key equality) satisfies this, as the preservation lemmas below show. -/
structure Inv (hash : K → Nat) (h : hashmap_t K V) : Prop where
  size_pos : 0 < h.arraySize
  len_eq : h.array.length = h.arraySize
  slots_wf : ∀ s ∈ h.array, SlotWF s
  bucket_ok : ∀ i < h.arraySize, ∀ k ∈ slotKeys (slotAt h i), hash k % h.arraySize = i
  keys_nodup : (keyList h).Nodup
  ids_nodup : (chainIds h).Nodup
  ids_lt : ∀ id ∈ chainIds h, id < h.nextId
  count_eq : h.count = ((entriesList h).length : Int)

/-- Valid cursor states: either no chain pointer and an index that has
not run past the array, or a chain pointer to a live node of the current
bucket's chain. -/
def IterWF (h : hashmap_t K V) (it : hashmap_iterator_t) : Prop :=
  (it.cur_linked = none ∧ it.cur ≤ h.arraySize) ∨
  (∃ l₁ n l₂, it.cur < h.arraySize ∧ it.cur_linked = some n.id ∧
    (slotAt h it.cur).chain = l₁ ++ n :: l₂)

/-- The entries of the buckets before bucket `i`. -/
def entPre (h : hashmap_t K V) (i : Nat) : List (hash_entry K V) :=
  ((h.array.take i).map slotEntries).flatten

/-- The entries of the buckets after bucket `i`. -/
def entPost (h : hashmap_t K V) (i : Nat) : List (hash_entry K V) :=
  ((h.array.drop (i + 1)).map slotEntries).flatten

/-- The chain ids of the buckets before bucket `i`. -/
def idsPre (h : hashmap_t K V) (i : Nat) : List Nat :=
  ((h.array.take i).map (fun s => s.chain.map (·.id))).flatten

/-- The chain ids of the buckets after bucket `i`. -/
def idsPost (h : hashmap_t K V) (i : Nat) : List Nat :=
  ((h.array.drop (i + 1)).map (fun s => s.chain.map (·.id))).flatten

/-- What one (successful) put does to the abstraction: the new map is
well-formed, the previous value is the old binding, exactly the binding of
`k` changes, the array can only have grown, and the entry count rises
exactly when `k` was absent. -/
def PutPost [DecidableEq K] (hash : K → Nat) (h h' : hashmap_t K V)
    (k : K) (v : V) (prev : Option V) : Prop :=
  Inv hash h' ∧
  prev = lookupVal h k ∧
  (∀ k', lookupVal h' k' = if k' = k then some v else lookupVal h k') ∧
  h.arraySize ≤ h'.arraySize ∧
  h.nextId ≤ h'.nextId ∧
  (entriesList h').length =
    (entriesList h).length + (if (lookupEnt h k).isSome then 0 else 1)

/-- A put step processes the entry list of the old array one entry at a
time during a resize; `insertListWith` is that replay loop, abstracted to
a plain list of entries (the lemmas below identify it with
`replaySlotsWith` and `replayChainWith`). -/
def insertListWith (put1 : hashmap_t K V → Option K → Option V → Option (hashmap_t K V × Option V)) :
    List (hash_entry K V) → hashmap_t K V → Option (hashmap_t K V)
  | [], acc => some acc
  | e :: rest, acc =>
    match put1 acc e.key e.val with
    | none => none
    | some (acc1, _) => insertListWith put1 rest acc1

/-- The behaviour a put function must exhibit on a well-formed map with
room factor `B`: it succeeds, satisfies `PutPost`, and its effect on the
array size is pinned down when no growth (or exactly one doubling)
happens. -/
def PutSpecB [DecidableEq K] (hash : K → Nat)
    (put1 : hashmap_t K V → Option K → Option V → Option (hashmap_t K V × Option V))
    (B : Nat) : Prop :=
  ∀ h k v, Inv hash h → 2 * (entriesList h).length + 2 ≤ B * h.arraySize →
    ∃ h' prev, put1 h (some k) (some v) = some (h', prev) ∧
      PutPost hash h h' k v prev ∧
      (2 * h.count < (h.arraySize : Int) → h'.arraySize = h.arraySize) ∧
      (¬2 * h.count < (h.arraySize : Int) →
        2 * (entriesList h).length + 2 ≤ 2 * h.arraySize →
        h'.arraySize = 2 * h.arraySize)

/-- The keys of the live entries held by slots `c` onward, in the order the
iterator visits them. -/
def keysFrom (h : hashmap_t K V) (c : Nat) : List (Option K) :=
  (((h.array.drop c).map slotEntries).flatten).map (·.key)

/-- The number of live entries held by slots `c` onward. -/
def remFrom (h : hashmap_t K V) (c : Nat) : Nat :=
  (((h.array.drop c).map slotEntries).flatten).length

/-- Repeated `hashmap_put` over a list of key/value pairs (each key and
value wrapped non-null), as a test driver does. -/
def putList (hash : K → Nat) (cmp : K → K → Int) :
    List (K × V) → hashmap_t K V → Option (hashmap_t K V)
  | [], h => some h
  | p :: rest, h =>
    match hashmap_put hash cmp h (some p.1) (some p.2) with
    | none => none
    | some (h1, _) => putList hash cmp rest h1

/-- Identity hash on naturals, for the concrete instances. -/
def tHash : Nat → Nat := fun k => k

/-- Constant hash forcing every key into bucket 0, for the concrete
chained instances. -/
def cHash : Nat → Nat := fun _ => 0

/-- Subtraction-style comparator on naturals (zero exactly on equal
keys, as the C `cmp` contract requires). -/
def cCmp : Nat → Nat → Int := fun a b => (a : Int) - (b : Int)

/-- A concrete one-entry map (key 1 bound to 10, array size 4), used by
several witnesses. -/
def wm : hashmap_t Nat Nat :=
  ((hashmap_put tHash cCmp (hashmap_new 4) (some 1) (some 10)).map Prod.fst).getD
    (hashmap_new 4)

/- ### Basic lemmas about the abstraction -/

theorem slotEntries_emptySlot : slotEntries (emptySlot : hash_slot K V) = [] := rfl

theorem flatten_map_decomp (f : α → List β) (l : List α) (i : Nat) (hi : i < l.length) :
    (l.map f).flatten =
      ((l.take i).map f).flatten ++ f l[i] ++ ((l.drop (i + 1)).map f).flatten := by
  conv_lhs => rw [← List.take_append_drop i l, List.drop_eq_getElem_cons hi]
  simp only [List.map_append, List.map_cons, List.flatten_append, List.flatten_cons,
    List.append_assoc]

theorem flatten_map_set (f : α → List β) (l : List α) (i : Nat) (hi : i < l.length) (a : α) :
    ((l.set i a).map f).flatten =
      ((l.take i).map f).flatten ++ f a ++ ((l.drop (i + 1)).map f).flatten := by
  rw [List.set_eq_take_cons_drop a hi]
  simp

theorem slotAt_eq_getElem (h : hashmap_t K V) (i : Nat) (hi : i < h.array.length) :
    slotAt h i = h.array[i] := by
  simp [slotAt, List.getD_eq_getElem?_getD, List.getElem?_eq_getElem hi]

theorem get?_eq_slotAt (h : hashmap_t K V) (i : Nat) (hi : i < h.array.length) :
    h.array.get? i = some (slotAt h i) := by
  rw [slotAt_eq_getElem h i hi]
  simp [List.get?_eq_getElem?, List.getElem?_eq_getElem hi]

theorem getElem?_eq_slotAt (h : hashmap_t K V) (i : Nat) (hi : i < h.array.length) :
    h.array[i]? = some (slotAt h i) := by
  rw [slotAt_eq_getElem h i hi]
  simp [List.getElem?_eq_getElem hi]

theorem slotAt_mem (h : hashmap_t K V) (i : Nat) (hi : i < h.array.length) :
    slotAt h i ∈ h.array := by
  rw [slotAt_eq_getElem h i hi]; exact List.getElem_mem hi

theorem entriesList_decomp (h : hashmap_t K V) (i : Nat) (hi : i < h.array.length) :
    entriesList h =
      ((h.array.take i).map slotEntries).flatten ++ slotEntries (slotAt h i) ++
        ((h.array.drop (i + 1)).map slotEntries).flatten := by
  rw [entriesList, flatten_map_decomp slotEntries h.array i hi, slotAt_eq_getElem h i hi]

theorem mem_slotEntries {s : hash_slot K V} {e : hash_entry K V}
    (he : e ∈ slotEntries s) (hwf : SlotWF s) : e.key.isSome ∧ e.val.isSome := by
  unfold slotEntries at he
  by_cases hk : s.ety.key.isSome
  · rw [if_pos hk] at he
    rcases List.mem_cons.mp he with rfl | he
    · exact ⟨hk, hwf.2.1 hk⟩
    · rcases List.mem_map.mp he with ⟨n, hn, rfl⟩
      exact hwf.2.2 n hn
  · rw [if_neg hk] at he
    exact absurd he (List.not_mem_nil e)

theorem entries_wf {hash : K → Nat} {h : hashmap_t K V} (hInv : Inv hash h) :
    ∀ e ∈ entriesList h, e.key.isSome ∧ e.val.isSome := by
  intro e he
  rcases List.mem_flatten.mp he with ⟨l, hl, hel⟩
  rcases List.mem_map.mp hl with ⟨s, hs, rfl⟩
  exact mem_slotEntries hel (hInv.slots_wf s hs)

theorem map_key_eq_filterMap (L : List (hash_entry K V))
    (hL : ∀ e ∈ L, e.key.isSome) :
    L.map (·.key) = (L.filterMap (·.key)).map some := by
  induction L with
  | nil => rfl
  | cons e rest ih =>
    rcases Option.isSome_iff_exists.mp (hL e (List.mem_cons_self e rest)) with ⟨k, hk⟩
    simp only [List.map_cons, List.filterMap_cons, hk, List.map]
    exact congrArg (some k :: ·) (ih fun e' he' => hL e' (List.mem_cons_of_mem e he'))

theorem keysList_eq_map_some {hash : K → Nat} {h : hashmap_t K V} (hInv : Inv hash h) :
    keysList h = (keyList h).map some :=
  map_key_eq_filterMap (entriesList h) fun e he => (entries_wf hInv e he).1

theorem mem_keyList {h : hashmap_t K V} {k : K} :
    k ∈ keyList h ↔ ∃ e ∈ entriesList h, e.key = some k := by
  simp [keyList, List.mem_filterMap]

theorem lookupEnt_isSome_iff [DecidableEq K] {h : hashmap_t K V} {k : K} :
    (lookupEnt h k).isSome ↔ k ∈ keyList h := by
  rw [lookupEnt, List.find?_isSome, mem_keyList]
  constructor
  · rintro ⟨e, he, hp⟩
    exact ⟨e, he, of_decide_eq_true hp⟩
  · rintro ⟨e, he, hp⟩
    exact ⟨e, he, decide_eq_true hp⟩

theorem lookupEnt_eq_some [DecidableEq K] {h : hashmap_t K V} {k : K}
    {e : hash_entry K V} (hfind : lookupEnt h k = some e) :
    e ∈ entriesList h ∧ e.key = some k := by
  unfold lookupEnt at hfind
  have hp := List.find?_some hfind
  exact ⟨List.mem_of_find?_eq_some hfind, of_decide_eq_true hp⟩

theorem lookupVal_isSome_iff [DecidableEq K] {hash : K → Nat} {h : hashmap_t K V}
    (hInv : Inv hash h) {k : K} :
    (lookupVal h k).isSome ↔ (lookupEnt h k).isSome := by
  unfold lookupVal
  cases hfind : lookupEnt h k with
  | none => simp
  | some e =>
    have := (entries_wf hInv e (lookupEnt_eq_some hfind).1).2
    simp [Option.bind, this]

theorem count_zero_entries_nil {hash : K → Nat} {h : hashmap_t K V} (hInv : Inv hash h)
    (hc : h.count = 0) : entriesList h = [] := by
  have := hInv.count_eq
  rw [hc] at this
  have hlen : (entriesList h).length = 0 := by exact_mod_cast this.symm
  exact List.length_eq_zero.mp hlen

/- ### The chain-scanning loops, characterised via `List.find?` -/

theorem getChain_eq_find [DecidableEq K] {cmp : K → K → Int}
    (hcmp : ∀ a b : K, cmp a b = 0 ↔ a = b) (k : K) (ch : List (hash_node K V)) :
    getChain cmp k ch =
      ((ch.map (·.ety)).find? (fun e => decide (e.key = some k))).bind (·.val) := by
  induction ch with
  | nil => rfl
  | cons n rest ih =>
    cases hk : n.ety.key with
    | none => simp [getChain, hk, ih]
    | some k' =>
      by_cases hkk : k = k'
      · subst hkk
        simp [getChain, hk, (hcmp k k).mpr rfl]
      · have hc0 : ¬cmp k k' = 0 := fun hc => hkk ((hcmp k k').mp hc)
        have hkn : ¬k' = k := fun e => hkk e.symm
        simp [getChain, hk, hc0, hkn, ih]

theorem exists_first_match [DecidableEq K] {k : K} (ch : List (hash_node K V))
    (hex : ∃ n ∈ ch, n.ety.key = some k) :
    ∃ l₁ n l₂, ch = l₁ ++ n :: l₂ ∧ n.ety.key = some k ∧
      ∀ m ∈ l₁, m.ety.key ≠ some k := by
  induction ch with
  | nil => rcases hex with ⟨n, hn, _⟩; exact absurd hn (List.not_mem_nil n)
  | cons m rest ih =>
    by_cases hm : m.ety.key = some k
    · exact ⟨[], m, rest, rfl, hm, by simp⟩
    · have hex' : ∃ n ∈ rest, n.ety.key = some k := by
        rcases hex with ⟨n, hn, hkey⟩
        rcases List.mem_cons.mp hn with rfl | hn'
        · exact absurd hkey hm
        · exact ⟨n, hn', hkey⟩
      rcases ih hex' with ⟨l₁, n, l₂, rfl, hkey, hno⟩
      refine ⟨m :: l₁, n, l₂, rfl, hkey, ?_⟩
      intro x hx
      rcases List.mem_cons.mp hx with rfl | hx'
      · exact hm
      · exact hno x hx'

theorem putChain_no_match {cmp : K → K → Int}
    (hcmp : ∀ a b : K, cmp a b = 0 ↔ a = b) {k : K} (v : V) (nid : Nat)
    (ch : List (hash_node K V)) (hno : ∀ n ∈ ch, n.ety.key ≠ some k) :
    putChain cmp k v nid ch = (ch ++ [⟨nid, ⟨some k, some v⟩⟩], none, true) := by
  induction ch with
  | nil => rfl
  | cons n rest ih =>
    have ihr := ih fun m hm => hno m (List.mem_cons_of_mem n hm)
    cases hk : n.ety.key with
    | none => simp [putChain, hk, ihr]
    | some k' =>
      have hne : ¬cmp k k' = 0 := by
        intro hc
        exact hno n (List.mem_cons_self n rest) (by rw [hk, (hcmp k k').mp hc])
      simp [putChain, hk, hne, ihr]

theorem putChain_match {cmp : K → K → Int}
    (hcmp : ∀ a b : K, cmp a b = 0 ↔ a = b) {k : K} (v : V) (nid : Nat)
    (l₁ l₂ : List (hash_node K V)) (n : hash_node K V)
    (hkey : n.ety.key = some k) (hno : ∀ m ∈ l₁, m.ety.key ≠ some k) :
    putChain cmp k v nid (l₁ ++ n :: l₂) =
      (l₁ ++ ⟨n.id, ⟨some k, some v⟩⟩ :: l₂, n.ety.val, false) := by
  induction l₁ with
  | nil =>
    simp [putChain, hkey, (hcmp k k).mpr rfl]
  | cons m rest ih =>
    have ihr := ih fun x hx => hno x (List.mem_cons_of_mem m hx)
    cases hk : m.ety.key with
    | none => simp [putChain, hk, ihr]
    | some k' =>
      have hne : ¬cmp k k' = 0 := by
        intro hc
        exact hno m (List.mem_cons_self m rest) (by rw [hk, (hcmp k k').mp hc])
      simp [putChain, hk, hne, ihr]

theorem removeChain_no_match {cmp : K → K → Int}
    (hcmp : ∀ a b : K, cmp a b = 0 ↔ a = b) {k : K}
    (ch : List (hash_node K V)) (hno : ∀ n ∈ ch, n.ety.key ≠ some k) :
    removeChain cmp k ch = none := by
  induction ch with
  | nil => rfl
  | cons n rest ih =>
    have ihr := ih fun m hm => hno m (List.mem_cons_of_mem n hm)
    cases hk : n.ety.key with
    | none => simp [removeChain, hk, ihr]
    | some k' =>
      have hne : ¬cmp k k' = 0 := by
        intro hc
        exact hno n (List.mem_cons_self n rest) (by rw [hk, (hcmp k k').mp hc])
      simp [removeChain, hk, hne, ihr]

theorem removeChain_match {cmp : K → K → Int}
    (hcmp : ∀ a b : K, cmp a b = 0 ↔ a = b) {k : K}
    (l₁ l₂ : List (hash_node K V)) (n : hash_node K V)
    (hkey : n.ety.key = some k) (hno : ∀ m ∈ l₁, m.ety.key ≠ some k) :
    removeChain cmp k (l₁ ++ n :: l₂) = some (l₁ ++ l₂, n.ety) := by
  induction l₁ with
  | nil =>
    simp [removeChain, hkey, (hcmp k k).mpr rfl]
  | cons m rest ih =>
    have ihr := ih fun x hx => hno x (List.mem_cons_of_mem m hx)
    cases hk : m.ety.key with
    | none => simp [removeChain, hk, ihr]
    | some k' =>
      have hne : ¬cmp k k' = 0 := by
        intro hc
        exact hno m (List.mem_cons_self m rest) (by rw [hk, (hcmp k k').mp hc])
      simp [removeChain, hk, hne, ihr]

/- ### `hashmap_get` computes the abstract lookup -/

theorem not_mem_other_bucket {hash : K → Nat} {h : hashmap_t K V} (hInv : Inv hash h)
    {k : K} {j : Nat} (hj : j < h.arraySize) (hne : j ≠ hash k % h.arraySize) :
    ∀ e ∈ slotEntries (slotAt h j), e.key ≠ some k := by
  intro e he hk
  have hkk : k ∈ slotKeys (slotAt h j) :=
    List.mem_filterMap.mpr ⟨e, he, hk⟩
  exact hne (hInv.bucket_ok j hj k hkk).symm

theorem find?_take_none [DecidableEq K] {hash : K → Nat} {h : hashmap_t K V}
    (hInv : Inv hash h) (k : K) :
    (((h.array.take (hash k % h.arraySize)).map slotEntries).flatten).find?
      (fun e => decide (e.key = some k)) = none := by
  rw [List.find?_eq_none]
  intro e he
  rcases List.mem_flatten.mp he with ⟨l, hl, hel⟩
  rcases List.mem_map.mp hl with ⟨s, hs, rfl⟩
  rcases List.mem_iff_getElem.mp hs with ⟨j, hjlen, rfl⟩
  have hjlt : j < h.array.length := lt_of_lt_of_le hjlen (by
    simpa using List.length_take_le' (hash k % h.arraySize) h.array)
  have hgj : (h.array.take (hash k % h.arraySize))[j] = h.array[j] :=
    List.getElem_take h.array
  have hjprobe : j < hash k % h.arraySize := by
    have := hjlen
    rw [List.length_take] at this
    omega
  have : e.key ≠ some k := by
    refine not_mem_other_bucket hInv
      (lt_of_lt_of_le hjprobe (le_of_lt (Nat.mod_lt _ hInv.size_pos)))
      (Nat.ne_of_lt hjprobe) e ?_
    rw [slotAt_eq_getElem h j hjlt, ← hgj]
    exact hel
  simpa using this

theorem find?_drop_none [DecidableEq K] {hash : K → Nat} {h : hashmap_t K V}
    (hInv : Inv hash h) (k : K) :
    (((h.array.drop (hash k % h.arraySize + 1)).map slotEntries).flatten).find?
      (fun e => decide (e.key = some k)) = none := by
  rw [List.find?_eq_none]
  intro e he
  rcases List.mem_flatten.mp he with ⟨l, hl, hel⟩
  rcases List.mem_map.mp hl with ⟨s, hs, rfl⟩
  rcases List.mem_iff_getElem.mp hs with ⟨j, hjlen, rfl⟩
  have hlen : (h.array.drop (hash k % h.arraySize + 1)).length
      = h.array.length - (hash k % h.arraySize + 1) := List.length_drop _ _
  have hjlt : hash k % h.arraySize + 1 + j < h.array.length := by omega
  have hgj : (h.array.drop (hash k % h.arraySize + 1))[j]
      = h.array[hash k % h.arraySize + 1 + j] := List.getElem_drop h.array
  have hidx : hash k % h.arraySize + 1 + j < h.arraySize := by
    have hl := hInv.len_eq
    omega
  have : e.key ≠ some k := by
    refine not_mem_other_bucket hInv hidx (by omega) e ?_
    rw [slotAt_eq_getElem h _ hjlt, ← hgj]
    exact hel
  simpa using this

theorem lookupEnt_eq_probe_find [DecidableEq K] {hash : K → Nat} {h : hashmap_t K V}
    (hInv : Inv hash h) (k : K) :
    lookupEnt h k = (slotEntries (slotAt h (hash k % h.arraySize))).find?
      (fun e => decide (e.key = some k)) := by
  have hprobe : hash k % h.arraySize < h.array.length := by
    rw [hInv.len_eq]; exact Nat.mod_lt _ hInv.size_pos
  rw [lookupEnt, entriesList_decomp h _ hprobe, List.find?_append, List.find?_append,
    find?_take_none hInv k, find?_drop_none hInv k]
  simp

/- ### Single-slot updates -/

theorem getD_set_of_lt (l : List α) (i j : Nat) (a d : α) (hi : i < l.length) :
    (l.set i a).getD j d = if j = i then a else l.getD j d := by
  by_cases hj : j = i
  · subst hj
    simp [List.getD_eq_getElem?_getD, List.getElem?_set_self hi]
  · simp [List.getD_eq_getElem?_getD, List.getElem?_set_ne fun e => hj e.symm, hj]

theorem slotAt_of_array_set {h h' : hashmap_t K V} {i : Nat} {s' : hash_slot K V}
    (harr : h'.array = h.array.set i s') (hi : i < h.array.length) (j : Nat) :
    slotAt h' j = if j = i then s' else slotAt h j := by
  rw [slotAt, harr, getD_set_of_lt _ _ _ _ _ hi]
  rfl

theorem entriesList_decomp' (h : hashmap_t K V) (i : Nat) (hi : i < h.array.length) :
    entriesList h = entPre h i ++ slotEntries (slotAt h i) ++ entPost h i :=
  entriesList_decomp h i hi

theorem entriesList_of_array_set {h h' : hashmap_t K V} {i : Nat} {s' : hash_slot K V}
    (harr : h'.array = h.array.set i s') (hi : i < h.array.length) :
    entriesList h' = entPre h i ++ slotEntries s' ++ entPost h i := by
  rw [entriesList, harr, flatten_map_set slotEntries h.array i hi]
  rfl

theorem chainIds_decomp (h : hashmap_t K V) (i : Nat) (hi : i < h.array.length) :
    chainIds h = idsPre h i ++ (slotAt h i).chain.map (·.id) ++ idsPost h i := by
  rw [chainIds, flatten_map_decomp _ h.array i hi, slotAt_eq_getElem h i hi]
  rfl

theorem chainIds_of_array_set {h h' : hashmap_t K V} {i : Nat} {s' : hash_slot K V}
    (harr : h'.array = h.array.set i s') (hi : i < h.array.length) :
    chainIds h' = idsPre h i ++ s'.chain.map (·.id) ++ idsPost h i := by
  rw [chainIds, harr, flatten_map_set _ h.array i hi]
  rfl

theorem keyList_decomp (h : hashmap_t K V) (i : Nat) (hi : i < h.array.length) :
    keyList h = (entPre h i).filterMap (·.key) ++ slotKeys (slotAt h i) ++
      (entPost h i).filterMap (·.key) := by
  rw [keyList, entriesList_decomp' h i hi, List.filterMap_append, List.filterMap_append]
  rfl

theorem keyList_of_array_set {h h' : hashmap_t K V} {i : Nat} {s' : hash_slot K V}
    (harr : h'.array = h.array.set i s') (hi : i < h.array.length) :
    keyList h' = (entPre h i).filterMap (·.key) ++ slotKeys s' ++
      (entPost h i).filterMap (·.key) := by
  rw [keyList, entriesList_of_array_set harr hi, List.filterMap_append, List.filterMap_append]
  rfl

theorem nodup_insert_middle {l₁ l₂ l₃ : List α} {a : α}
    (hn : (l₁ ++ l₂ ++ l₃).Nodup) (ha : a ∉ l₁ ++ l₂ ++ l₃) :
    (l₁ ++ (l₂ ++ [a]) ++ l₃).Nodup := by
  have hperm : (l₁ ++ (l₂ ++ [a]) ++ l₃).Perm (a :: (l₁ ++ l₂ ++ l₃)) := by
    have he : l₁ ++ (l₂ ++ [a]) ++ l₃ = (l₁ ++ l₂) ++ a :: l₃ := by
      simp [List.append_assoc]
    rw [he]
    have := @List.perm_middle _ a (l₁ ++ l₂) l₃
    simpa [List.append_assoc] using this
  exact hperm.nodup_iff.mpr (List.nodup_cons.mpr ⟨ha, hn⟩)

theorem lookupEnt_set_slot [DecidableEq K] {hash : K → Nat} {h h' : hashmap_t K V}
    (hInv : Inv hash h) (hInv' : Inv hash h') (hsize : h'.arraySize = h.arraySize)
    {i : Nat} (hsame : ∀ j < h.arraySize, j ≠ i → slotAt h' j = slotAt h j) (k' : K) :
    lookupEnt h' k' = if hash k' % h.arraySize = i
      then (slotEntries (slotAt h' (hash k' % h.arraySize))).find?
        (fun e => decide (e.key = some k'))
      else lookupEnt h k' := by
  rw [lookupEnt_eq_probe_find hInv' k', hsize]
  by_cases hti : hash k' % h.arraySize = i
  · rw [if_pos hti]
  · rw [if_neg hti, lookupEnt_eq_probe_find hInv k',
      hsame _ (Nat.mod_lt _ hInv.size_pos) hti]

theorem Inv_set_slot_samekeys {hash : K → Nat} {h : hashmap_t K V} (hInv : Inv hash h)
    {i : Nat} (hi : i < h.arraySize) {s' : hash_slot K V} (hwf : SlotWF s')
    (hkeys : slotKeys s' = slotKeys (slotAt h i))
    (hids : s'.chain.map (·.id) = (slotAt h i).chain.map (·.id))
    (hlen : (slotEntries s').length = (slotEntries (slotAt h i)).length) :
    Inv hash { h with array := h.array.set i s' } := by
  have hil : i < h.array.length := by rw [hInv.len_eq]; exact hi
  have harr : ({ h with array := h.array.set i s' } : hashmap_t K V).array
      = h.array.set i s' := rfl
  refine ⟨hInv.size_pos, by simpa using hInv.len_eq, ?_, ?_, ?_, ?_, ?_, ?_⟩
  · intro s hs
    rcases List.mem_or_eq_of_mem_set hs with hs' | rfl
    · exact hInv.slots_wf s hs'
    · exact hwf
  · intro j hj k hk
    rw [slotAt_of_array_set harr hil j] at hk
    by_cases hji : j = i
    · subst hji
      rw [if_pos rfl, hkeys] at hk
      exact hInv.bucket_ok j hj k hk
    · rw [if_neg hji] at hk
      exact hInv.bucket_ok j hj k hk
  · have := keyList_of_array_set harr hil
    rw [show keyList { h with array := h.array.set i s' } = _ from this, hkeys,
      ← keyList_decomp h i hil]
    exact hInv.keys_nodup
  · have := chainIds_of_array_set harr hil
    rw [show chainIds { h with array := h.array.set i s' } = _ from this, hids,
      ← chainIds_decomp h i hil]
    exact hInv.ids_nodup
  · intro a ha
    have := chainIds_of_array_set harr hil
    rw [show chainIds { h with array := h.array.set i s' } = _ from this, hids,
      ← chainIds_decomp h i hil] at ha
    exact hInv.ids_lt a ha
  · have := entriesList_of_array_set harr hil
    rw [show entriesList { h with array := h.array.set i s' } = _ from this]
    have hlen' : (entPre h i ++ slotEntries s' ++ entPost h i).length
        = (entriesList h).length := by
      rw [entriesList_decomp' h i hil]
      simp [hlen]
    rw [hlen']
    exact hInv.count_eq

theorem Inv_set_slot_addkey {hash : K → Nat} {h : hashmap_t K V} (hInv : Inv hash h)
    {i : Nat} (hi : i < h.arraySize) {s' : hash_slot K V} {k : K} (hwf : SlotWF s')
    (hknew : k ∉ keyList h) (hkb : hash k % h.arraySize = i)
    (hkeys : slotKeys s' = slotKeys (slotAt h i) ++ [k])
    (hlen : (slotEntries s').length = (slotEntries (slotAt h i)).length + 1)
    (newIds : List Nat)
    (hids : s'.chain.map (·.id) = (slotAt h i).chain.map (·.id) ++ newIds)
    (n' : Nat) (hn' : h.nextId ≤ n')
    (hnewlt : ∀ a ∈ newIds, a < n' ∧ h.nextId ≤ a) (hnewnodup : newIds.Nodup) :
    Inv hash { h with array := h.array.set i s', count := h.count + 1, nextId := n' } := by
  have hil : i < h.array.length := by rw [hInv.len_eq]; exact hi
  set hm : hashmap_t K V :=
    { h with array := h.array.set i s', count := h.count + 1, nextId := n' } with hhm
  have harr : hm.array = h.array.set i s' := rfl
  refine ⟨hInv.size_pos, by simpa [hhm] using hInv.len_eq, ?_, ?_, ?_, ?_, ?_, ?_⟩
  · intro s hs
    rcases List.mem_or_eq_of_mem_set hs with hs' | rfl
    · exact hInv.slots_wf s hs'
    · exact hwf
  · intro j hj k' hk'
    rw [show hm.arraySize = h.arraySize from rfl] at hj ⊢
    rw [slotAt_of_array_set harr hil j] at hk'
    by_cases hji : j = i
    · subst hji
      rw [if_pos rfl, hkeys] at hk'
      rcases List.mem_append.mp hk' with hk' | hk'
      · exact hInv.bucket_ok j hj k' hk'
      · rw [List.mem_singleton.mp hk']
        exact hkb
    · rw [if_neg hji] at hk'
      exact hInv.bucket_ok j hj k' hk'
  · rw [show keyList hm = _ from keyList_of_array_set harr hil, hkeys]
    refine nodup_insert_middle ?_ ?_
    · rw [← keyList_decomp h i hil]
      exact hInv.keys_nodup
    · rw [← keyList_decomp h i hil]
      exact hknew
  · rw [show chainIds hm = _ from chainIds_of_array_set harr hil, hids]
    have hch := chainIds_decomp h i hil
    have hfresh : ∀ a ∈ newIds, a ∉ chainIds h := by
      intro a ha hmem
      exact absurd (hInv.ids_lt a hmem) (not_lt.mpr (hnewlt a ha).2)
    -- (idsPre ++ (old ++ newIds) ++ idsPost) is a permutation of (chainIds h ++ newIds)
    have hperm : (idsPre h i ++ ((slotAt h i).chain.map (·.id) ++ newIds) ++ idsPost h i).Perm
        (chainIds h ++ newIds) := by
      rw [hch]
      simp only [List.append_assoc]
      refine List.Perm.append_left (idsPre h i) ?_
      refine List.Perm.append_left ((slotAt h i).chain.map (·.id)) ?_
      exact List.perm_append_comm
    refine hperm.nodup_iff.mpr ?_
    rw [List.nodup_append]
    exact ⟨hInv.ids_nodup, hnewnodup, fun a hmem ha => hfresh a ha hmem⟩
  · intro a ha
    rw [show chainIds hm = _ from chainIds_of_array_set harr hil, hids] at ha
    have hch := chainIds_decomp h i hil
    rw [show hm.nextId = n' from rfl]
    have hold : a ∈ chainIds h → a < n' := fun hm' =>
      lt_of_lt_of_le (hInv.ids_lt a hm') hn'
    rcases List.mem_append.mp ha with h1 | hpost
    · rcases List.mem_append.mp h1 with hpre | hmid
      · exact hold (by
          rw [hch]
          exact List.mem_append.mpr (Or.inl (List.mem_append.mpr (Or.inl hpre))))
      · rcases List.mem_append.mp hmid with holdid | hnew
        · exact hold (by
            rw [hch]
            exact List.mem_append.mpr (Or.inl (List.mem_append.mpr (Or.inr holdid))))
        · exact (hnewlt a hnew).1
    · exact hold (by rw [hch]; exact List.mem_append.mpr (Or.inr hpost))
  · rw [show hm.count = h.count + 1 from rfl,
      show entriesList hm = _ from entriesList_of_array_set harr hil]
    have : (entPre h i ++ slotEntries s' ++ entPost h i).length
        = (entriesList h).length + 1 := by
      rw [entriesList_decomp' h i hil]
      simp [hlen]
      omega
    rw [this, hInv.count_eq]
    push_cast
    ring

theorem lookupVal_after_set [DecidableEq K] {hash : K → Nat} {h h' : hashmap_t K V}
    (hInv : Inv hash h) (hInv' : Inv hash h') (hsize : h'.arraySize = h.arraySize)
    {k : K} {i : Nat} (hki : hash k % h.arraySize = i)
    (hsame : ∀ j < h.arraySize, j ≠ i → slotAt h' j = slotAt h j) {v : V}
    (hfound : ((slotEntries (slotAt h' i)).find?
        (fun e => decide (e.key = some k))).bind (·.val) = some v)
    (hoth : ∀ k', k' ≠ k →
      (slotEntries (slotAt h' i)).find? (fun e => decide (e.key = some k'))
        = (slotEntries (slotAt h i)).find? (fun e => decide (e.key = some k'))) :
    ∀ k', lookupVal h' k' = if k' = k then some v else lookupVal h k' := by
  intro k'
  by_cases hk' : k' = k
  · subst hk'
    rw [if_pos rfl, lookupVal, lookupEnt_set_slot hInv hInv' hsize hsame k',
      if_pos hki, hki]
    exact hfound
  · rw [if_neg hk', lookupVal, lookupEnt_set_slot hInv hInv' hsize hsame k']
    by_cases hz : hash k' % h.arraySize = i
    · rw [if_pos hz, hz, hoth k' hk', lookupVal, lookupEnt_eq_probe_find hInv k', hz]
    · rw [if_neg hz]
      rfl

theorem find?_map_ety_none [DecidableEq K] {k : K} {l : List (hash_node K V)}
    (hno : ∀ m ∈ l, m.ety.key ≠ some k) :
    (l.map (·.ety)).find? (fun e => decide (e.key = some k)) = none := by
  rw [List.find?_eq_none]
  intro e he
  rcases List.mem_map.mp he with ⟨m, hm, rfl⟩
  simpa using hno m hm

theorem putCore_spec [DecidableEq K] {hash : K → Nat} {cmp : K → K → Int}
    (hcmp : ∀ a b : K, cmp a b = 0 ↔ a = b) {h : hashmap_t K V} (hInv : Inv hash h)
    (k : K) (v : V) :
    ∃ h' prev, putCore hash cmp h k v = some (h', prev) ∧ PutPost hash h h' k v prev ∧
      h'.arraySize = h.arraySize ∧
      h'.count = h.count + (if (lookupEnt h k).isSome then 0 else 1) := by
  have hiz : doProbe hash h k < h.arraySize := Nat.mod_lt _ hInv.size_pos
  have hil : doProbe hash h k < h.array.length := by rw [hInv.len_eq]; exact hiz
  have hgets : h.array.get? (doProbe hash h k) = some (slotAt h (doProbe hash h k)) :=
    get?_eq_slotAt h _ hil
  set i := doProbe hash h k with hidef
  set s := slotAt h i with hs
  have hsmem : s ∈ h.array := by rw [hs]; exact slotAt_mem h i hil
  have hswf : SlotWF s := hInv.slots_wf s hsmem
  have hkb : hash k % h.arraySize = i := rfl
  have hlookup : lookupEnt h k
      = (slotEntries s).find? (fun e => decide (e.key = some k)) := by
    rw [lookupEnt_eq_probe_find hInv k, hkb, ← hs]
  cases hrk : s.ety.key with
  | none =>
    -- the probed root slot is empty: install (k, v) there, count++
    have hchain : s.chain = [] := hswf.1 hrk
    have hse : slotEntries s = [] := by simp [slotEntries, hrk]
    have hlk : lookupEnt h k = none := by rw [hlookup, hse]; rfl
    have hknotin : k ∉ keyList h := by
      intro hmem
      have := lookupEnt_isSome_iff.mpr hmem
      rw [hlk] at this
      simp at this
    have hput : putCore hash cmp h k v
        = some ({ h with
                  array := h.array.set i ⟨⟨some k, some v⟩, s.chain⟩,
                  count := h.count + 1 }, none) := by
      simp only [putCore]
      rw [← hidef, hgets]
      simp only [hrk]
    set h₂ : hashmap_t K V :=
      { h with
        array := h.array.set i ⟨⟨some k, some v⟩, s.chain⟩,
        count := h.count + 1 } with hh₂
    have harr : h₂.array = h.array.set i ⟨⟨some k, some v⟩, s.chain⟩ := rfl
    have hseNew : slotEntries (⟨⟨some k, some v⟩, s.chain⟩ : hash_slot K V)
        = [⟨some k, some v⟩] := by simp [slotEntries, hchain]
    have hInv' : Inv hash h₂ := by
      refine Inv_set_slot_addkey hInv hiz ?_ hknotin hkb ?_ ?_ ([] : List Nat) ?_
        h.nextId (le_refl h.nextId) ?_ ?_
      · exact ⟨by simp, by simp, by rw [hchain]; exact fun n hn => absurd hn (List.not_mem_nil n)⟩
      · rw [show slotKeys (⟨⟨some k, some v⟩, s.chain⟩ : hash_slot K V)
            = [k] from by simp [slotKeys, hseNew], ← hs,
          show slotKeys s = [] from by simp [slotKeys, hse]]
        rfl
      · rw [hseNew, ← hs, hse]
        rfl
      · rw [← hs, hchain]
        exact (List.append_nil _).symm
      · exact fun a ha => absurd ha (List.not_mem_nil a)
      · exact List.nodup_nil
    have hsame : ∀ j < h.arraySize, j ≠ i → slotAt h₂ j = slotAt h j := by
      intro j hj hji
      rw [slotAt_of_array_set harr hil j, if_neg hji]
    have hsA : slotAt h₂ i = ⟨⟨some k, some v⟩, s.chain⟩ := by
      rw [slotAt_of_array_set harr hil i, if_pos rfl]
    have hlookups : ∀ k', lookupVal h₂ k' = if k' = k then some v else lookupVal h k' := by
      refine lookupVal_after_set hInv hInv' rfl hkb hsame ?_ ?_
      · rw [hsA, hseNew]
        simp
      · intro k' hk'
        have hkk' : ¬(k = k') := fun e => hk' e.symm
        rw [hsA, hseNew, ← hs, hse]
        simp [List.find?_cons, hkk']
    have hlen2 : (entriesList h₂).length = (entriesList h).length + 1 := by
      rw [entriesList_of_array_set harr hil, entriesList_decomp' h i hil, ← hs,
        hse, hseNew]
      simp
      omega
    refine ⟨h₂, none, hput, ⟨hInv', ?_, hlookups, le_refl _, le_refl _, ?_⟩, rfl, ?_⟩
    · simp [lookupVal, hlk]
    · simp [hlk, hlen2]
    · simp [hh₂, hlk]
  | some rk =>
    by_cases hcc : cmp k rk = 0
    · -- the root entry already holds `k`: replace its value in place
      have heq : k = rk := (hcmp k rk).mp hcc
      subst heq
      have hseB : slotEntries s = s.ety :: s.chain.map (·.ety) := by
        simp [slotEntries, hrk]
      have hlk : lookupEnt h k = some s.ety := by
        rw [hlookup, hseB, List.find?_cons]
        simp [hrk]
      have hput : putCore hash cmp h k v
          = some ({ h with array := h.array.set i ⟨⟨s.ety.key, some v⟩, s.chain⟩ },
              s.ety.val) := by
        simp only [putCore]
        rw [← hidef, hgets]
        simp only [hrk]
        rw [if_pos hcc]
      set h₂ : hashmap_t K V :=
        { h with array := h.array.set i ⟨⟨s.ety.key, some v⟩, s.chain⟩ } with hh₂
      have harr : h₂.array = h.array.set i ⟨⟨s.ety.key, some v⟩, s.chain⟩ := rfl
      have hseNew : slotEntries (⟨⟨s.ety.key, some v⟩, s.chain⟩ : hash_slot K V)
          = ⟨s.ety.key, some v⟩ :: s.chain.map (·.ety) := by
        simp [slotEntries, hrk]
      have hInv' : Inv hash h₂ := by
        refine Inv_set_slot_samekeys hInv hiz ?_ ?_ rfl ?_
        · exact ⟨by simp [hrk], by simp, hswf.2.2⟩
        · rw [← hs]
          simp [slotKeys, slotEntries, hrk]
        · rw [← hs, hseNew, hseB]
          simp
      have hsame : ∀ j < h.arraySize, j ≠ i → slotAt h₂ j = slotAt h j := by
        intro j hj hji
        rw [slotAt_of_array_set harr hil j, if_neg hji]
      have hsA : slotAt h₂ i = ⟨⟨s.ety.key, some v⟩, s.chain⟩ := by
        rw [slotAt_of_array_set harr hil i, if_pos rfl]
      have hlookups : ∀ k', lookupVal h₂ k'
          = if k' = k then some v else lookupVal h k' := by
        refine lookupVal_after_set hInv hInv' rfl hkb hsame ?_ ?_
        · rw [hsA, hseNew, List.find?_cons]
          simp [hrk]
        · intro k' hk'
          have hkk' : ¬(k = k') := fun e => hk' e.symm
          rw [hsA, hseNew, ← hs, hseB, List.find?_cons, List.find?_cons]
          simp [hrk, hkk']
      have hlen2 : (entriesList h₂).length = (entriesList h).length := by
        rw [entriesList_of_array_set harr hil, entriesList_decomp' h i hil, ← hs,
          hseB, hseNew]
        simp
      refine ⟨h₂, s.ety.val, hput, ⟨hInv', ?_, hlookups, le_refl _, le_refl _, ?_⟩,
        rfl, ?_⟩
      · simp [lookupVal, hlk]
      · simp [hlk, hlen2]
      · simp [hh₂, hlk]
    · -- the root holds a different key: scan / extend the chain
      have hne : rk ≠ k := fun e => hcc ((hcmp k rk).mpr e.symm)
      have hseB : slotEntries s = s.ety :: s.chain.map (·.ety) := by
        simp [slotEntries, hrk]
      have hpredroot : (s.ety.key = some k) = False := by
        simp [hrk, hne]
      by_cases hex : ∃ n ∈ s.chain, n.ety.key = some k
      · -- replace in place inside the chain
        rcases exists_first_match s.chain hex with ⟨l₁, n, l₂, hsplit, hnk, hnomatch⟩
        have hput : putCore hash cmp h k v
            = some ({ h with
                      array := h.array.set i
                        ⟨s.ety, l₁ ++ ⟨n.id, ⟨some k, some v⟩⟩ :: l₂⟩ }, n.ety.val) := by
          simp only [putCore]
          rw [← hidef, hgets]
          simp only [hrk]
          rw [if_neg hcc, hsplit,
            putChain_match hcmp v h.nextId l₁ l₂ n hnk hnomatch]
          simp
        set h₂ : hashmap_t K V :=
          { h with
            array := h.array.set i ⟨s.ety, l₁ ++ ⟨n.id, ⟨some k, some v⟩⟩ :: l₂⟩ } with hh₂
        have harr : h₂.array
            = h.array.set i ⟨s.ety, l₁ ++ ⟨n.id, ⟨some k, some v⟩⟩ :: l₂⟩ := rfl
        have hseNew : slotEntries (⟨s.ety, l₁ ++ ⟨n.id, ⟨some k, some v⟩⟩ :: l₂⟩
            : hash_slot K V) = s.ety :: (l₁ ++ ⟨n.id, ⟨some k, some v⟩⟩ :: l₂).map (·.ety) := by
          simp [slotEntries, hrk]
        have hlk : lookupEnt h k = some n.ety := by
          rw [hlookup, hseB, hsplit, List.find?_cons]
          rw [show (decide (s.ety.key = some k)) = false from by simp [hpredroot]]
          rw [List.map_append, List.find?_append, find?_map_ety_none hnomatch]
          simp [List.find?_cons, hnk]
        have hInv' : Inv hash h₂ := by
          refine Inv_set_slot_samekeys hInv hiz ?_ ?_ ?_ ?_
          · refine ⟨by simp [hrk], by simp [hrk]; exact hswf.2.1 (by simp [hrk]), ?_⟩
            intro m hm
            rcases List.mem_append.mp hm with hm1 | hm2
            · exact hswf.2.2 m (by rw [hsplit]; exact List.mem_append.mpr (Or.inl hm1))
            · rcases List.mem_cons.mp hm2 with rfl | hm3
              · simp
              · exact hswf.2.2 m
                  (by rw [hsplit]; exact List.mem_append.mpr (Or.inr (List.mem_cons_of_mem n hm3)))
          · rw [← hs]
            simp [slotKeys, hseNew, hseB, hsplit, List.filterMap_append,
              List.filterMap_cons, hnk, hrk]
          · rw [← hs, hsplit]
            simp
          · rw [← hs, hseNew, hseB, hsplit]
            simp
        have hsame : ∀ j < h.arraySize, j ≠ i → slotAt h₂ j = slotAt h j := by
          intro j hj hji
          rw [slotAt_of_array_set harr hil j, if_neg hji]
        have hsA : slotAt h₂ i = ⟨s.ety, l₁ ++ ⟨n.id, ⟨some k, some v⟩⟩ :: l₂⟩ := by
          rw [slotAt_of_array_set harr hil i, if_pos rfl]
        have hlookups : ∀ k', lookupVal h₂ k'
            = if k' = k then some v else lookupVal h k' := by
          refine lookupVal_after_set hInv hInv' rfl hkb hsame ?_ ?_
          · rw [hsA, hseNew, List.find?_cons]
            rw [show (decide (s.ety.key = some k)) = false from by simp [hpredroot]]
            rw [List.map_append, List.find?_append, find?_map_ety_none hnomatch]
            simp [List.find?_cons]
          · intro k' hk'
            have hkk' : ¬(k = k') := fun e => hk' e.symm
            rw [hsA, hseNew, ← hs, hseB, hsplit]
            simp [List.map_append, List.find?_append, List.find?_cons, hnk, hkk']
        have hlen2 : (entriesList h₂).length = (entriesList h).length := by
          rw [entriesList_of_array_set harr hil, entriesList_decomp' h i hil, ← hs,
            hseB, hseNew, hsplit]
          simp
        refine ⟨h₂, n.ety.val, hput, ⟨hInv', ?_, hlookups, le_refl _, le_refl _, ?_⟩,
          rfl, ?_⟩
        · simp [lookupVal, hlk]
        · simp [hlk, hlen2]
        · simp [hh₂, hlk]
      · -- key absent: append a fresh node at the chain's tail
        have hno : ∀ n ∈ s.chain, n.ety.key ≠ some k := by
          intro n hn hkey
          exact hex ⟨n, hn, hkey⟩
        have hput : putCore hash cmp h k v
            = some ({ h with
                      array := h.array.set i
                        ⟨s.ety, s.chain ++ [⟨h.nextId, ⟨some k, some v⟩⟩]⟩,
                      count := h.count + 1,
                      nextId := h.nextId + 1 }, none) := by
          simp only [putCore]
          rw [← hidef, hgets]
          simp only [hrk]
          rw [if_neg hcc, putChain_no_match hcmp v h.nextId s.chain hno]
          simp
        set h₂ : hashmap_t K V :=
          { h with
            array := h.array.set i ⟨s.ety, s.chain ++ [⟨h.nextId, ⟨some k, some v⟩⟩]⟩,
            count := h.count + 1,
            nextId := h.nextId + 1 } with hh₂
        have harr : h₂.array
            = h.array.set i ⟨s.ety, s.chain ++ [⟨h.nextId, ⟨some k, some v⟩⟩]⟩ := rfl
        have hseNew : slotEntries (⟨s.ety, s.chain ++ [⟨h.nextId, ⟨some k, some v⟩⟩]⟩
            : hash_slot K V)
            = s.ety :: (s.chain.map (·.ety) ++ [⟨some k, some v⟩]) := by
          simp [slotEntries, hrk]
        have hlk : lookupEnt h k = none := by
          rw [hlookup, hseB, List.find?_cons]
          rw [show (decide (s.ety.key = some k)) = false from by simp [hpredroot]]
          exact find?_map_ety_none hno
        have hknotin : k ∉ keyList h := by
          intro hmem
          have := lookupEnt_isSome_iff.mpr hmem
          rw [hlk] at this
          simp at this
        have hInv' : Inv hash h₂ := by
          refine Inv_set_slot_addkey hInv hiz ?_ hknotin hkb ?_ ?_ [h.nextId] ?_
            (h.nextId + 1) (Nat.le_succ h.nextId) ?_ ?_
          · refine ⟨by simp [hrk], by simp [hrk]; exact hswf.2.1 (by simp [hrk]), ?_⟩
            intro m hm
            rcases List.mem_append.mp hm with hm1 | hm2
            · exact hswf.2.2 m hm1
            · rw [List.mem_singleton.mp hm2]
              simp
          · rw [← hs]
            simp [slotKeys, slotEntries, hrk, List.filterMap_append,
              List.filterMap_cons]
          · rw [← hs, hseNew, hseB]
            simp
          · rw [← hs]
            simp
          · intro a ha
            rw [List.mem_singleton.mp ha]
            exact ⟨Nat.lt_succ_self _, le_refl _⟩
          · exact List.nodup_singleton _
        have hsame : ∀ j < h.arraySize, j ≠ i → slotAt h₂ j = slotAt h j := by
          intro j hj hji
          rw [slotAt_of_array_set harr hil j, if_neg hji]
        have hsA : slotAt h₂ i
            = ⟨s.ety, s.chain ++ [⟨h.nextId, ⟨some k, some v⟩⟩]⟩ := by
          rw [slotAt_of_array_set harr hil i, if_pos rfl]
        have hlookups : ∀ k', lookupVal h₂ k'
            = if k' = k then some v else lookupVal h k' := by
          refine lookupVal_after_set hInv hInv' rfl hkb hsame ?_ ?_
          · rw [hsA, hseNew, List.find?_cons]
            rw [show (decide (s.ety.key = some k)) = false from by simp [hpredroot]]
            rw [List.find?_append, find?_map_ety_none hno]
            simp [List.find?_cons]
          · intro k' hk'
            have hkk' : ¬(k = k') := fun e => hk' e.symm
            rw [hsA, hseNew, ← hs, hseB]
            simp [List.find?_append, List.find?_cons, hkk']
        have hlen2 : (entriesList h₂).length = (entriesList h).length + 1 := by
          rw [entriesList_of_array_set harr hil, entriesList_decomp' h i hil, ← hs,
            hseB, hseNew]
          simp
          omega
        refine ⟨h₂, none, hput, ⟨hInv', ?_, hlookups, le_refl _, Nat.le_succ _, ?_⟩,
          rfl, ?_⟩
        · simp [lookupVal, hlk]
        · simp [hlk, hlen2]
        · simp [hh₂, hlk]

theorem hashmap_get_eq_lookupVal [DecidableEq K] {hash : K → Nat} {cmp : K → K → Int}
    (hcmp : ∀ a b : K, cmp a b = 0 ↔ a = b) {h : hashmap_t K V} (hInv : Inv hash h)
    (k : K) : hashmap_get hash cmp h (some k) = lookupVal h k := by
  by_cases hc : hashmap_count h = 0
  · rw [lookupVal, lookupEnt, count_zero_entries_nil hInv hc]
    simp [hashmap_get, hc]
  · have hprobe : doProbe hash h k < h.array.length := by
      rw [hInv.len_eq]; exact Nat.mod_lt _ hInv.size_pos
    have hpr : doProbe hash h k = hash k % h.arraySize := rfl
    rw [lookupVal, lookupEnt_eq_probe_find hInv k, ← hpr]
    set s := slotAt h (doProbe hash h k) with hs
    cases hrk : s.ety.key with
    | none =>
      have hse : slotEntries s = [] := by simp [slotEntries, hrk]
      simp [hashmap_get, hc, getElem?_eq_slotAt h _ hprobe, ← hs, hrk, hse]
    | some rk =>
      have hse : slotEntries s = s.ety :: s.chain.map (·.ety) := by
        simp [slotEntries, hrk]
      rw [hse]
      by_cases hkk : cmp k rk = 0
      · have heq : rk = k := ((hcmp k rk).mp hkk).symm
        subst heq
        simp [hashmap_get, hc, getElem?_eq_slotAt h _ hprobe, ← hs, hrk, hkk,
          List.find?_cons]
      · have hne : ¬(rk = k) := fun hrkk => hkk ((hcmp k rk).mpr hrkk.symm)
        simp [hashmap_get, hc, getElem?_eq_slotAt h _ hprobe, ← hs, hrk, hkk,
          List.find?_cons, hne, getChain_eq_find hcmp k s.chain]

/- ### The resize replay loop -/

theorem insertListWith_append
    (put1 : hashmap_t K V → Option K → Option V → Option (hashmap_t K V × Option V))
    (A B : List (hash_entry K V)) (acc : hashmap_t K V) :
    insertListWith put1 (A ++ B) acc =
      match insertListWith put1 A acc with
      | none => none
      | some acc1 => insertListWith put1 B acc1 := by
  induction A generalizing acc with
  | nil => rfl
  | cons e rest ih =>
    rw [List.cons_append]
    simp only [insertListWith]
    cases hp : put1 acc e.key e.val with
    | none => rfl
    | some p => exact ih p.1

theorem replayChainWith_eq
    (put1 : hashmap_t K V → Option K → Option V → Option (hashmap_t K V × Option V))
    (ch : List (hash_node K V)) (acc : hashmap_t K V) :
    replayChainWith put1 ch acc = insertListWith put1 (ch.map (·.ety)) acc := by
  induction ch generalizing acc with
  | nil => rfl
  | cons n rest ih =>
    simp only [replayChainWith, List.map_cons, insertListWith]
    cases hp : put1 acc n.ety.key n.ety.val with
    | none => rfl
    | some p => exact ih p.1

theorem replaySlotsWith_eq
    (put1 : hashmap_t K V → Option K → Option V → Option (hashmap_t K V × Option V))
    (slots : List (hash_slot K V)) (acc : hashmap_t K V) :
    replaySlotsWith put1 slots acc
      = insertListWith put1 ((slots.map slotEntries).flatten) acc := by
  induction slots generalizing acc with
  | nil => rfl
  | cons sl rest ih =>
    cases hrk : sl.ety.key with
    | none =>
      have hse : slotEntries sl = [] := by simp [slotEntries, hrk]
      simp only [replaySlotsWith, hrk, List.map_cons, List.flatten_cons, hse,
        List.nil_append]
      exact ih acc
    | some k0 =>
      have hse : slotEntries sl = sl.ety :: sl.chain.map (·.ety) := by
        simp [slotEntries, hrk]
      simp only [replaySlotsWith, hrk, List.map_cons, List.flatten_cons, hse,
        List.cons_append, insertListWith]
      cases hp : put1 acc (some k0) sl.ety.val with
      | none => simp only [hp]
      | some p =>
        obtain ⟨acc1, pv⟩ := p
        simp only [hp]
        rw [insertListWith_append, ← replayChainWith_eq]
        cases hq : replayChainWith put1 sl.chain acc1 with
        | none => simp only [hq]
        | some acc2 =>
          simp only [hq]
          exact ih acc2

theorem flatten_replicate_nil (m : Nat) : (List.replicate m ([] : List α)).flatten = [] := by
  induction m with
  | zero => rfl
  | succ m ih => simpa using ih

theorem Inv_empty (hash : K → Nat) (m : Nat) (hm : 0 < m) (nid : Nat) :
    Inv hash ({ arraySize := m, array := List.replicate m emptySlot, count := 0, nextId := nid } : hashmap_t K V) := by
  have hent : entriesList ({ arraySize := m, array := List.replicate m emptySlot, count := 0, nextId := nid } : hashmap_t K V) = [] := by
    rw [entriesList]
    simp only [List.map_replicate, slotEntries_emptySlot]
    exact flatten_replicate_nil m
  have hids : chainIds ({ arraySize := m, array := List.replicate m emptySlot, count := 0, nextId := nid } : hashmap_t K V) = [] := by
    rw [chainIds]
    simp only [List.map_replicate]
    rw [show ((emptySlot : hash_slot K V).chain.map (·.id)) = [] from rfl]
    exact flatten_replicate_nil m
  refine ⟨hm, by simp, ?_, ?_, ?_, ?_, ?_, ?_⟩
  · intro s hs
    rw [List.eq_of_mem_replicate hs]
    exact ⟨fun _ => rfl, by simp [emptySlot], fun n hn => absurd hn (List.not_mem_nil n)⟩
  · intro i hi k hk
    have hsl : slotAt ({ arraySize := m, array := List.replicate m emptySlot, count := 0, nextId := nid } : hashmap_t K V) i = emptySlot := by
      rw [slotAt]
      simp [List.getD_eq_getElem?_getD]
    rw [hsl] at hk
    simp [slotKeys, slotEntries, emptySlot] at hk
  · rw [keyList, hent]
    exact List.nodup_nil
  · rw [hids]
    exact List.nodup_nil
  · intro a ha
    rw [hids] at ha
    exact absurd ha (List.not_mem_nil a)
  · rw [hent]
    rfl

theorem Inv_new (hash : K → Nat) (n : Nat) (hn : 0 < n) :
    Inv hash (hashmap_new n : hashmap_t K V) :=
  Inv_empty hash n hn 0

theorem insertListWith_spec [DecidableEq K] {hash : K → Nat}
    {put1 : hashmap_t K V → Option K → Option V → Option (hashmap_t K V × Option V)}
    {B : Nat} (hput : PutSpecB hash put1 B) :
    ∀ (ES : List (hash_entry K V)) (acc : hashmap_t K V),
    Inv hash acc →
    (∀ e ∈ ES, e.key.isSome ∧ e.val.isSome) →
    (ES.filterMap (·.key)).Nodup →
    (∀ k ∈ ES.filterMap (·.key), k ∉ keyList acc) →
    2 * ((entriesList acc).length + ES.length) + 2 ≤ B * acc.arraySize →
    ∃ acc', insertListWith put1 ES acc = some acc' ∧ Inv hash acc' ∧
      acc.arraySize ≤ acc'.arraySize ∧ acc.nextId ≤ acc'.nextId ∧
      (entriesList acc').length = (entriesList acc).length + ES.length ∧
      (∀ k', lookupVal acc' k' =
        match ES.find? (fun e => decide (e.key = some k')) with
        | some e => e.val
        | none => lookupVal acc k') ∧
      (2 * ((entriesList acc).length + ES.length) + 2 ≤ acc.arraySize →
        acc'.arraySize = acc.arraySize) := by
  intro ES
  induction ES with
  | nil =>
    intro acc hInv _ _ _ _
    exact ⟨acc, rfl, hInv, le_refl _, le_refl _, by simp, fun k' => rfl, fun _ => rfl⟩
  | cons e rest ih =>
    intro acc hInv hvals hnodup hdisj hroom
    rcases Option.isSome_iff_exists.mp (hvals e (List.mem_cons_self e rest)).1 with ⟨k, hk⟩
    rcases Option.isSome_iff_exists.mp (hvals e (List.mem_cons_self e rest)).2 with ⟨v, hv⟩
    have hkeysc : (e :: rest).filterMap (·.key) = k :: rest.filterMap (·.key) := by
      simp [List.filterMap_cons, hk]
    have hknotrest : k ∉ rest.filterMap (·.key) := by
      have := hnodup
      rw [hkeysc] at this
      exact (List.nodup_cons.mp this).1
    have hrestnodup : (rest.filterMap (·.key)).Nodup := by
      have := hnodup
      rw [hkeysc] at this
      exact (List.nodup_cons.mp this).2
    have hkacc : k ∉ keyList acc := hdisj k (by rw [hkeysc]; exact List.mem_cons_self _ _)
    have hlkacc : lookupEnt acc k = none := by
      cases hfind : lookupEnt acc k with
      | none => rfl
      | some e' =>
        exact absurd (lookupEnt_isSome_iff.mp (by rw [hfind]; rfl)) hkacc
    have hroom1 : 2 * (entriesList acc).length + 2 ≤ B * acc.arraySize := by
      have : (entriesList acc).length ≤ (entriesList acc).length + (e :: rest).length := Nat.le_add_right _ _
      omega
    rcases hput acc k v hInv hroom1 with ⟨h1, prev, heq, hpost, hsz1, hsz2⟩
    rcases hpost with ⟨hInv1, hprev, hlooks1, hszle, hnidle, hlen1⟩
    have hlen1' : (entriesList h1).length = (entriesList acc).length + 1 := by
      rw [hlen1, hlkacc]
      rfl
    have hstep : insertListWith put1 (e :: rest) acc = insertListWith put1 rest h1 := by
      simp only [insertListWith]
      rw [hk, hv, heq]
    have hdisj1 : ∀ k'' ∈ rest.filterMap (·.key), k'' ∉ keyList h1 := by
      intro k'' hk'' hmem
      have hne : k'' ≠ k := fun he => hknotrest (he ▸ hk'')
      have h1some : (lookupVal h1 k'').isSome :=
        (lookupVal_isSome_iff hInv1).mpr (lookupEnt_isSome_iff.mpr hmem)
      rw [hlooks1 k'', if_neg hne] at h1some
      have : (lookupEnt acc k'').isSome := (lookupVal_isSome_iff hInv).mp h1some
      exact hdisj k'' (by rw [hkeysc]; exact List.mem_cons_of_mem _ hk'')
        (lookupEnt_isSome_iff.mp this)
    have hroomr : 2 * ((entriesList h1).length + rest.length) + 2 ≤ B * h1.arraySize := by
      have hm : B * acc.arraySize ≤ B * h1.arraySize := Nat.mul_le_mul_left B hszle
      rw [hlen1']
      simp only [List.length_cons] at hroom
      omega
    rcases ih h1 hInv1 (fun e' he' => hvals e' (List.mem_cons_of_mem e he'))
      hrestnodup hdisj1 hroomr with
      ⟨acc', hrun, hInv', hszle', hnidle', hlen', hlooks', hexact'⟩
    have hnorest : ∀ e' ∈ rest, e'.key ≠ some k := by
      intro e' he' hke'
      exact hknotrest (List.mem_filterMap.mpr ⟨e', he', hke'⟩)
    refine ⟨acc', by rw [hstep]; exact hrun, hInv', le_trans hszle hszle',
      le_trans hnidle hnidle', ?_, ?_, ?_⟩
    · rw [hlen', hlen1']
      simp only [List.length_cons]
      omega
    · intro k'
      by_cases hkk : k' = k
      · subst hkk
        have hpred : (decide (e.key = some k')) = true := by simp [hk]
        have hrestnone : rest.find? (fun e' => decide (e'.key = some k')) = none := by
          rw [List.find?_eq_none]
          intro e' he'
          simpa using hnorest e' he'
        rw [show List.find? (fun e' => decide (e'.key = some k')) (e :: rest) = some e
          from List.find?_cons_of_pos _ hpred]
        rw [hlooks' k', hrestnone, hlooks1 k']
        simp [hv]
      · have hpred : ¬((decide (e.key = some k')) = true) := by
          simp [hk]
          exact fun he => absurd he.symm hkk
        rw [show List.find? (fun e' => decide (e'.key = some k')) (e :: rest)
            = List.find? (fun e' => decide (e'.key = some k')) rest
          from List.find?_cons_of_neg _ hpred]
        rw [hlooks' k']
        cases hfr : rest.find? (fun e' => decide (e'.key = some k')) with
        | none =>
          simp only [hfr]
          rw [hlooks1 k', if_neg hkk]
        | some e' => simp only [hfr]
    · intro hsmall
      simp only [List.length_cons] at hsmall
      have hcnt : acc.count = ((entriesList acc).length : Int) := hInv.count_eq
      have hnog : 2 * acc.count < (acc.arraySize : Int) := by
        rw [hcnt]
        push_cast
        omega
      have h1size : h1.arraySize = acc.arraySize := hsz1 hnog
      have : acc'.arraySize = h1.arraySize := by
        refine hexact' ?_
        rw [hlen1', h1size]
        omega
      rw [this, h1size]

theorem increaseWith_spec [DecidableEq K] {hash : K → Nat}
    {put1 : hashmap_t K V → Option K → Option V → Option (hashmap_t K V × Option V)}
    {B : Nat} (hput : PutSpecB hash put1 B)
    {h : hashmap_t K V} (hInv : Inv hash h) (factor : Nat) (hfac : 1 ≤ factor)
    (hroom : 2 * (entriesList h).length + 2 ≤ B * (h.arraySize * factor)) :
    ∃ h', increaseWith put1 h factor = some h' ∧ Inv hash h' ∧
      h.arraySize * factor ≤ h'.arraySize ∧
      (entriesList h').length = (entriesList h).length ∧
      h'.count = h.count ∧
      (∀ k', lookupVal h' k' = lookupVal h k') ∧
      h.nextId ≤ h'.nextId ∧
      (2 * (entriesList h).length + 2 ≤ h.arraySize * factor →
        h'.arraySize = h.arraySize * factor) := by
  have hmpos : 0 < h.arraySize * factor := Nat.mul_pos hInv.size_pos hfac
  set base : hashmap_t K V := { arraySize := h.arraySize * factor, array := List.replicate (h.arraySize * factor) emptySlot, count := 0, nextId := h.nextId } with hbase
  have hInvb : Inv hash base := Inv_empty hash _ hmpos h.nextId
  have hentb : entriesList base = [] := count_zero_entries_nil hInvb rfl
  have hrw : increaseWith put1 h factor = insertListWith put1 (entriesList h) base := by
    rw [increaseWith, replaySlotsWith_eq]
    rfl
  have hvals := entries_wf hInv
  have hkeysnodup : ((entriesList h).filterMap (·.key)).Nodup := hInv.keys_nodup
  have hdisj : ∀ k ∈ (entriesList h).filterMap (·.key), k ∉ keyList base := by
    intro k _ hmem
    rw [keyList, hentb] at hmem
    exact absurd hmem (List.not_mem_nil k)
  have hroomb : 2 * ((entriesList base).length + (entriesList h).length) + 2
      ≤ B * base.arraySize := by
    rw [hentb]
    simpa using hroom
  rcases insertListWith_spec hput (entriesList h) base hInvb hvals hkeysnodup hdisj
    hroomb with ⟨h', hrun, hInv', hsz, hnid, hlen, hlooks, hexact⟩
  refine ⟨h', by rw [hrw]; exact hrun, hInv', hsz, ?_, ?_, ?_, hnid, ?_⟩
  · rw [hlen, hentb]
    simp
  · rw [hInv'.count_eq, hInv.count_eq, hlen, hentb]
    simp
  · intro k'
    rw [hlooks k']
    have hbnone : lookupVal base k' = none := by
      rw [lookupVal, lookupEnt, hentb]
      rfl
    rw [show (entriesList h).find? (fun e => decide (e.key = some k'))
        = lookupEnt h k' from rfl]
    cases he : lookupEnt h k' with
    | none =>
      rw [hbnone]
      conv_rhs => rw [lookupVal, he]
      rfl
    | some e =>
      conv_rhs => rw [lookupVal, he]
      rfl
  · intro hex
    have hq : h'.arraySize = base.arraySize := by
      refine hexact ?_
      rw [hentb]
      simpa using hex
    exact hq

theorem putF_succ_eq (hash : K → Nat) (cmp : K → K → Int) (fuel : Nat)
    (h : hashmap_t K V) (k : K) (v : V) :
    putF hash cmp (fuel + 1) h (some k) (some v)
      = match ensureWith (fun h' key' val' => putF hash cmp fuel h' key' val') h with
        | none => none
        | some h1 => putCore hash cmp h1 k v := rfl

theorem putF_spec [DecidableEq K] {hash : K → Nat} {cmp : K → K → Int}
    (hcmp : ∀ a b : K, cmp a b = 0 ↔ a = b) :
    ∀ fuel : Nat, PutSpecB (V := V) hash (putF hash cmp (fuel + 1)) (2 ^ fuel) := by
  intro fuel
  induction fuel with
  | zero =>
    intro h k v hInv hroom
    have hroom' : 2 * (entriesList h).length + 2 ≤ h.arraySize := by simpa using hroom
    have hcount : 2 * h.count < (h.arraySize : Int) := by
      rw [hInv.count_eq]
      push_cast
      omega
    have hens : ensureWith (fun h' key' val' => putF hash cmp 0 h' key' val') h
        = some h := by
      rw [ensureWith, if_pos hcount]
    rcases putCore_spec hcmp hInv k v with ⟨h', prev, hcore, hpost, hsz, _⟩
    refine ⟨h', prev, ?_, hpost, fun _ => hsz, fun habs _ => absurd hcount habs⟩
    rw [putF_succ_eq, hens]
    exact hcore
  | succ fuel ih =>
    intro h k v hInv hroom
    by_cases hif : 2 * h.count < (h.arraySize : Int)
    · have hens : ensureWith (fun h' key' val' => putF hash cmp (fuel + 1) h' key' val') h
          = some h := by
        rw [ensureWith, if_pos hif]
      rcases putCore_spec hcmp hInv k v with ⟨h', prev, hcore, hpost, hsz, _⟩
      refine ⟨h', prev, ?_, hpost, fun _ => hsz, fun habs _ => absurd hif habs⟩
      rw [putF_succ_eq, hens]
      exact hcore
    · have hroom2 : 2 * (entriesList h).length + 2 ≤ 2 ^ fuel * (h.arraySize * 2) := by
        have he : 2 ^ fuel * (h.arraySize * 2) = 2 ^ (fuel + 1) * h.arraySize := by
          ring
        rw [he]
        exact hroom
      have ihl : PutSpecB hash
          (fun h' key' val' => putF hash cmp (fuel + 1) h' key' val') (2 ^ fuel) := ih
      rcases increaseWith_spec ihl hInv 2 (by norm_num) hroom2 with
        ⟨h1, hgrows, hInv1, hszg, hleng, hcntg, hlooksg, hnidg, hexactg⟩
      rcases putCore_spec hcmp hInv1 k v with ⟨h', prev, hcore, hpost1, hszc, _⟩
      rcases hpost1 with ⟨hInv', hprev1, hlooks1, _, hnid1, hlen1⟩
      have hens : ensureWith (fun h' key' val' => putF hash cmp (fuel + 1) h' key' val') h
          = some h1 := by
        rw [ensureWith, if_neg hif]
        exact hgrows
      have h1iff : (lookupEnt h1 k).isSome ↔ (lookupEnt h k).isSome := by
        rw [← lookupVal_isSome_iff hInv1, ← lookupVal_isSome_iff hInv, hlooksg k]
      have hind : (if (lookupEnt h1 k).isSome then 0 else 1)
          = (if (lookupEnt h k).isSome then (0 : Nat) else 1) := by
        by_cases hsome : (lookupEnt h k).isSome = true
        · rw [if_pos hsome, if_pos (h1iff.mpr hsome)]
        · rw [if_neg hsome, if_neg fun hc => hsome (h1iff.mp hc)]
      refine ⟨h', prev, ?_, ⟨hInv', ?_, ?_, ?_, ?_, ?_⟩, fun habs => absurd habs hif, ?_⟩
      · rw [putF_succ_eq, hens]
        exact hcore
      · rw [hprev1, hlooksg k]
      · intro k'
        rw [hlooks1 k', hlooksg k']
      · calc h.arraySize ≤ h.arraySize * 2 := Nat.le_mul_of_pos_right _ (by norm_num)
          _ ≤ h1.arraySize := hszg
          _ = h'.arraySize := hszc.symm
      · exact le_trans hnidg hnid1
      · rw [hlen1, hleng, hind]
      · intro _ hsm
        rw [hszc, hexactg (by omega)]
        exact Nat.mul_comm _ _

theorem hashmap_put_spec [DecidableEq K] {hash : K → Nat} {cmp : K → K → Int}
    (hcmp : ∀ a b : K, cmp a b = 0 ↔ a = b) {h : hashmap_t K V} (hInv : Inv hash h)
    (k : K) (v : V) :
    ∃ h' prev, hashmap_put hash cmp h (some k) (some v) = some (h', prev) ∧
      PutPost hash h h' k v prev ∧
      (2 * h.count < (h.arraySize : Int) → h'.arraySize = h.arraySize) ∧
      (¬2 * h.count < (h.arraySize : Int) →
        2 * (entriesList h).length + 2 ≤ 2 * h.arraySize →
        h'.arraySize = 2 * h.arraySize) := by
  have hc : h.count.natAbs = (entriesList h).length := by
    rw [hInv.count_eq]
    exact Int.natAbs_ofNat _
  have hroom : 2 * (entriesList h).length + 2
      ≤ 2 ^ (2 * h.count.natAbs + 2) * h.arraySize := by
    calc 2 * (entriesList h).length + 2
        ≤ 2 ^ (2 * (entriesList h).length + 2) := le_of_lt (Nat.lt_two_pow _)
      _ ≤ 2 ^ (2 * (entriesList h).length + 2) * h.arraySize :=
          Nat.le_mul_of_pos_right _ hInv.size_pos
      _ = 2 ^ (2 * h.count.natAbs + 2) * h.arraySize := by rw [hc]
  exact putF_spec hcmp (2 * h.count.natAbs + 2) h k v hInv hroom

theorem hashmap_increase_capacity_spec [DecidableEq K] {hash : K → Nat}
    {cmp : K → K → Int} (hcmp : ∀ a b : K, cmp a b = 0 ↔ a = b)
    {h : hashmap_t K V} (hInv : Inv hash h) (factor : Nat) (hfac : 1 ≤ factor) :
    ∃ h', hashmap_increase_capacity hash cmp h factor = some h' ∧ Inv hash h' ∧
      h'.count = h.count ∧
      (entriesList h').length = (entriesList h).length ∧
      (∀ k', lookupVal h' k' = lookupVal h k') ∧
      h.arraySize * factor ≤ h'.arraySize := by
  have hc : h.count.natAbs = (entriesList h).length := by
    rw [hInv.count_eq]
    exact Int.natAbs_ofNat _
  have hroom : 2 * (entriesList h).length + 2
      ≤ 2 ^ (2 * h.count.natAbs + 2) * (h.arraySize * factor) := by
    calc 2 * (entriesList h).length + 2
        ≤ 2 ^ (2 * (entriesList h).length + 2) := le_of_lt (Nat.lt_two_pow _)
      _ ≤ 2 ^ (2 * (entriesList h).length + 2) * (h.arraySize * factor) :=
          Nat.le_mul_of_pos_right _ (Nat.mul_pos hInv.size_pos hfac)
      _ = 2 ^ (2 * h.count.natAbs + 2) * (h.arraySize * factor) := by rw [hc]
  rcases increaseWith_spec (putF_spec hcmp (2 * h.count.natAbs + 2)) hInv factor hfac
    hroom with ⟨h', hrun, hInv', hsz, hlen, hcnt, hlooks, _, _⟩
  exact ⟨h', hrun, hInv', hcnt, hlen, hlooks, hsz⟩

/- ### Removal -/

theorem lookupVal_after_remove [DecidableEq K] {hash : K → Nat} {h h' : hashmap_t K V}
    (hInv : Inv hash h) (hInv' : Inv hash h') (hsize : h'.arraySize = h.arraySize)
    {k : K} {i : Nat} (hki : hash k % h.arraySize = i)
    (hsame : ∀ j < h.arraySize, j ≠ i → slotAt h' j = slotAt h j)
    (hnone : (slotEntries (slotAt h' i)).find? (fun e => decide (e.key = some k)) = none)
    (hoth : ∀ k', k' ≠ k →
      (slotEntries (slotAt h' i)).find? (fun e => decide (e.key = some k'))
        = (slotEntries (slotAt h i)).find? (fun e => decide (e.key = some k'))) :
    ∀ k', lookupVal h' k' = if k' = k then none else lookupVal h k' := by
  intro k'
  by_cases hk' : k' = k
  · subst hk'
    rw [if_pos rfl, lookupVal, lookupEnt_set_slot hInv hInv' hsize hsame k',
      if_pos hki, hki, hnone]
    rfl
  · rw [if_neg hk', lookupVal, lookupEnt_set_slot hInv hInv' hsize hsame k']
    by_cases hz : hash k' % h.arraySize = i
    · rw [if_pos hz, hz, hoth k' hk', lookupVal, lookupEnt_eq_probe_find hInv k', hz]
    · rw [if_neg hz]
      rfl

theorem slotKeys_nodup {hash : K → Nat} {h : hashmap_t K V} (hInv : Inv hash h)
    {i : Nat} (hi : i < h.array.length) : (slotKeys (slotAt h i)).Nodup := by
  have hsub : (slotKeys (slotAt h i)).Sublist (keyList h) := by
    rw [keyList_decomp h i hi, List.append_assoc]
    exact (List.sublist_append_left _ _).trans (List.sublist_append_right _ _)
  exact hInv.keys_nodup.sublist hsub

theorem Inv_set_slot_dropkey {hash : K → Nat} {h : hashmap_t K V} (hInv : Inv hash h)
    {i : Nat} (hi : i < h.arraySize) {s' : hash_slot K V} (hwf : SlotWF s')
    (hkeysub : (slotKeys s').Sublist (slotKeys (slotAt h i)))
    (hlen : (slotEntries s').length + 1 = (slotEntries (slotAt h i)).length)
    (hids : (s'.chain.map (·.id)).Sublist ((slotAt h i).chain.map (·.id))) :
    Inv hash { h with array := h.array.set i s', count := h.count - 1 } := by
  have hil : i < h.array.length := by rw [hInv.len_eq]; exact hi
  set hm : hashmap_t K V := { h with array := h.array.set i s', count := h.count - 1 } with hhm
  have harr : hm.array = h.array.set i s' := rfl
  refine ⟨hInv.size_pos, by simpa [hhm] using hInv.len_eq, ?_, ?_, ?_, ?_, ?_, ?_⟩
  · intro s hs
    rcases List.mem_or_eq_of_mem_set hs with hs' | rfl
    · exact hInv.slots_wf s hs'
    · exact hwf
  · intro j hj k' hk'
    rw [show hm.arraySize = h.arraySize from rfl] at hj ⊢
    rw [slotAt_of_array_set harr hil j] at hk'
    by_cases hji : j = i
    · subst hji
      rw [if_pos rfl] at hk'
      exact hInv.bucket_ok j hj k' (hkeysub.mem hk')
    · rw [if_neg hji] at hk'
      exact hInv.bucket_ok j hj k' hk'
  · rw [show keyList hm = _ from keyList_of_array_set harr hil]
    refine hInv.keys_nodup.sublist ?_
    rw [keyList_decomp h i hil]
    exact ((hkeysub.append_left _).append_right _)
  · rw [show chainIds hm = _ from chainIds_of_array_set harr hil]
    refine hInv.ids_nodup.sublist ?_
    rw [chainIds_decomp h i hil]
    exact ((hids.append_left _).append_right _)
  · intro a ha
    rw [show chainIds hm = _ from chainIds_of_array_set harr hil] at ha
    refine hInv.ids_lt a ?_
    rw [chainIds_decomp h i hil]
    exact ((hids.append_left (idsPre h i)).append_right (idsPost h i)).mem ha
  · rw [show hm.count = h.count - 1 from rfl,
      show entriesList hm = _ from entriesList_of_array_set harr hil]
    have hlent : (entPre h i ++ slotEntries s' ++ entPost h i).length + 1
        = (entriesList h).length := by
      rw [entriesList_decomp' h i hil]
      simp only [List.length_append]
      omega
    have hE := hInv.count_eq
    omega

theorem hashmap_remove_entry_notfound [DecidableEq K] {hash : K → Nat}
    {cmp : K → K → Int} (hcmp : ∀ a b : K, cmp a b = 0 ↔ a = b)
    {h : hashmap_t K V} (hInv : Inv hash h) {k : K}
    (hnone : lookupEnt h k = none) :
    hashmap_remove_entry hash cmp h k = (h, ⟨none, none⟩) := by
  have hiz : doProbe hash h k < h.arraySize := Nat.mod_lt _ hInv.size_pos
  have hil : doProbe hash h k < h.array.length := by rw [hInv.len_eq]; exact hiz
  have hgets : h.array.get? (doProbe hash h k) = some (slotAt h (doProbe hash h k)) :=
    get?_eq_slotAt h _ hil
  set i := doProbe hash h k with hidef
  set s := slotAt h i with hs
  have hkb : hash k % h.arraySize = i := rfl
  have hlookup : (slotEntries s).find? (fun e => decide (e.key = some k)) = none := by
    rw [← hnone, lookupEnt_eq_probe_find hInv k, hkb, ← hs]
  cases hrk : s.ety.key with
  | none =>
    simp only [hashmap_remove_entry]
    rw [← hidef, hgets]
    simp only [hrk]
  | some rk =>
    have hseB : slotEntries s = s.ety :: s.chain.map (·.ety) := by
      simp [slotEntries, hrk]
    by_cases hcc : cmp k rk = 0
    · exfalso
      have heq : k = rk := (hcmp k rk).mp hcc
      subst heq
      rw [hseB] at hlookup
      rw [List.find?_eq_none] at hlookup
      exact absurd (by simp [hrk] : (fun e : hash_entry K V => decide (e.key = some k)) s.ety = true)
        (by simpa using hlookup s.ety (List.mem_cons_self _ _))
    · have hne : rk ≠ k := fun e => hcc ((hcmp k rk).mpr e.symm)
      have hchainnone : (s.chain.map (·.ety)).find? (fun e => decide (e.key = some k)) = none := by
        rw [hseB] at hlookup
        rw [show List.find? (fun e => decide (e.key = some k)) (s.ety :: s.chain.map (·.ety))
            = List.find? (fun e => decide (e.key = some k)) (s.chain.map (·.ety))
          from List.find?_cons_of_neg _ (by simp [hrk, hne])] at hlookup
        exact hlookup
      have hno : ∀ m ∈ s.chain, m.ety.key ≠ some k := by
        intro m hm hkm
        rw [List.find?_eq_none] at hchainnone
        exact absurd (by simp [hkm]) (hchainnone m.ety (List.mem_map.mpr ⟨m, hm, rfl⟩))
      simp only [hashmap_remove_entry]
      rw [← hidef, hgets]
      simp only [hrk]
      rw [if_neg hcc, removeChain_no_match hcmp s.chain hno]

theorem hashmap_remove_entry_found [DecidableEq K] {hash : K → Nat}
    {cmp : K → K → Int} (hcmp : ∀ a b : K, cmp a b = 0 ↔ a = b)
    {h : hashmap_t K V} (hInv : Inv hash h) {k : K} {e : hash_entry K V}
    (hfound : lookupEnt h k = some e) :
    ∃ h', hashmap_remove_entry hash cmp h k = (h', e) ∧ Inv hash h' ∧
      h'.count = h.count - 1 ∧
      (entriesList h').length + 1 = (entriesList h).length ∧
      (∀ k', lookupVal h' k' = if k' = k then none else lookupVal h k') ∧
      h'.arraySize = h.arraySize := by
  have hiz : doProbe hash h k < h.arraySize := Nat.mod_lt _ hInv.size_pos
  have hil : doProbe hash h k < h.array.length := by rw [hInv.len_eq]; exact hiz
  have hgets : h.array.get? (doProbe hash h k) = some (slotAt h (doProbe hash h k)) :=
    get?_eq_slotAt h _ hil
  set i := doProbe hash h k with hidef
  set s := slotAt h i with hs
  have hsmem : s ∈ h.array := by rw [hs]; exact slotAt_mem h i hil
  have hswf : SlotWF s := hInv.slots_wf s hsmem
  have hkb : hash k % h.arraySize = i := rfl
  have hlookup : (slotEntries s).find? (fun e => decide (e.key = some k)) = some e := by
    rw [← hfound, lookupEnt_eq_probe_find hInv k, hkb, ← hs]
  have hsknodup : (slotKeys s).Nodup := by rw [hs]; exact slotKeys_nodup hInv hil
  cases hrk : s.ety.key with
  | none =>
    exfalso
    have hse : slotEntries s = [] := by simp [slotEntries, hrk]
    rw [hse] at hlookup
    exact absurd hlookup (by simp)
  | some rk =>
    have hseB : slotEntries s = s.ety :: s.chain.map (·.ety) := by
      simp [slotEntries, hrk]
    by_cases hcc : cmp k rk = 0
    · -- the root entry matches
      have heq : k = rk := (hcmp k rk).mp hcc
      subst heq
      have hes : e = s.ety := by
        rw [hseB] at hlookup
        rw [show List.find? (fun e => decide (e.key = some k)) (s.ety :: s.chain.map (·.ety))
            = some s.ety from List.find?_cons_of_pos _ (by simp [hrk])] at hlookup
        exact (Option.some.injEq _ _ ▸ hlookup).symm
      have hknotchain : ∀ m ∈ s.chain, m.ety.key ≠ some k := by
        intro m hm hkm
        have hsk : slotKeys s = k :: (s.chain.map (·.ety)).filterMap (·.key) := by
          simp [slotKeys, hseB, hrk]
        have : k ∈ (s.chain.map (·.ety)).filterMap (·.key) :=
          List.mem_filterMap.mpr ⟨m.ety, List.mem_map.mpr ⟨m, hm, rfl⟩, hkm⟩
        rw [hsk] at hsknodup
        exact (List.nodup_cons.mp hsknodup).1 this
      cases hchain : s.chain with
      | nil =>
        -- root match, no chain: null the key out
        have hrem : hashmap_remove_entry hash cmp h k
            = ({ h with array := h.array.set i ⟨⟨none, s.ety.val⟩, []⟩, count := h.count - 1 }, s.ety) := by
          simp only [hashmap_remove_entry]
          rw [← hidef, hgets]
          simp only [hrk, hchain]
          rw [if_pos hcc]
        set h₂ : hashmap_t K V :=
          { h with array := h.array.set i ⟨⟨none, s.ety.val⟩, []⟩, count := h.count - 1 } with hh₂
        have harr : h₂.array = h.array.set i ⟨⟨none, s.ety.val⟩, []⟩ := rfl
        have hseNew : slotEntries (⟨⟨none, s.ety.val⟩, []⟩ : hash_slot K V) = [] := by
          simp [slotEntries]
        have hInv' : Inv hash h₂ := by
          refine Inv_set_slot_dropkey hInv hiz ?_ ?_ ?_ ?_
          · exact ⟨fun _ => rfl, by simp, fun n hn => absurd hn (List.not_mem_nil n)⟩
          · rw [show slotKeys (⟨⟨none, s.ety.val⟩, []⟩ : hash_slot K V) = [] from by
              simp [slotKeys, hseNew]]
            exact List.nil_sublist _
          · rw [hseNew, ← hs, hseB, hchain]
            simp
          · simp [← hs, hchain]
        have hsame : ∀ j < h.arraySize, j ≠ i → slotAt h₂ j = slotAt h j := by
          intro j hj hji
          rw [slotAt_of_array_set harr hil j, if_neg hji]
        have hsA : slotAt h₂ i = ⟨⟨none, s.ety.val⟩, []⟩ := by
          rw [slotAt_of_array_set harr hil i, if_pos rfl]
        have hlooks : ∀ k', lookupVal h₂ k' = if k' = k then none else lookupVal h k' := by
          refine lookupVal_after_remove hInv hInv' rfl hkb hsame ?_ ?_
          · rw [hsA, hseNew]
            rfl
          · intro k' hk'
            rw [hsA, hseNew, ← hs, hseB, hchain]
            have hkk' : ¬(k = k') := fun hh => hk' hh.symm
            simp [List.find?_cons, hrk, hkk']
        have hlen2 : (entriesList h₂).length + 1 = (entriesList h).length := by
          rw [show entriesList h₂ = _ from entriesList_of_array_set harr hil,
            entriesList_decomp' h i hil, ← hs, hseB, hseNew, hchain]
          simp
          omega
        rw [hes]
        exact ⟨h₂, hrem, hInv', rfl, hlen2, hlooks, rfl⟩
      | cons tmp rest =>
        -- root match with a chain: promote the chain head
        have htmpmem : tmp ∈ s.chain := by rw [hchain]; exact List.mem_cons_self _ _
        have htmpwf := hswf.2.2 tmp htmpmem
        have hrem : hashmap_remove_entry hash cmp h k
            = ({ h with array := h.array.set i ⟨tmp.ety, rest⟩, count := h.count - 1 }, s.ety) := by
          simp only [hashmap_remove_entry]
          rw [← hidef, hgets]
          simp only [hrk, hchain]
          rw [if_pos hcc]
        set h₂ : hashmap_t K V :=
          { h with array := h.array.set i ⟨tmp.ety, rest⟩, count := h.count - 1 } with hh₂
        have harr : h₂.array = h.array.set i ⟨tmp.ety, rest⟩ := rfl
        have hseNew : slotEntries (⟨tmp.ety, rest⟩ : hash_slot K V)
            = s.chain.map (·.ety) := by
          rw [hchain]
          simp [slotEntries, htmpwf.1]
        have hInv' : Inv hash h₂ := by
          refine Inv_set_slot_dropkey hInv hiz ?_ ?_ ?_ ?_
          · refine ⟨fun hn => ?_, fun _ => htmpwf.2, ?_⟩
            · rw [hn] at htmpwf
              exact absurd htmpwf.1 (by simp)
            · intro m hm
              exact hswf.2.2 m (by rw [hchain]; exact List.mem_cons_of_mem tmp hm)
          · rw [show slotKeys (⟨tmp.ety, rest⟩ : hash_slot K V)
                = (s.chain.map (·.ety)).filterMap (·.key) from by rw [slotKeys, hseNew],
              ← hs, show slotKeys s = k :: (s.chain.map (·.ety)).filterMap (·.key) from by
                simp [slotKeys, hseB, hrk]]
            exact List.sublist_cons_self _ _
          · rw [hseNew, ← hs, hseB]
            simp
          · rw [← hs, hchain]
            simp only [List.map_cons]
            exact List.sublist_cons_self _ _
        have hsame : ∀ j < h.arraySize, j ≠ i → slotAt h₂ j = slotAt h j := by
          intro j hj hji
          rw [slotAt_of_array_set harr hil j, if_neg hji]
        have hsA : slotAt h₂ i = ⟨tmp.ety, rest⟩ := by
          rw [slotAt_of_array_set harr hil i, if_pos rfl]
        have hlooks : ∀ k', lookupVal h₂ k' = if k' = k then none else lookupVal h k' := by
          refine lookupVal_after_remove hInv hInv' rfl hkb hsame ?_ ?_
          · rw [hsA, hseNew]
            exact find?_map_ety_none hknotchain
          · intro k' hk'
            rw [hsA, hseNew, ← hs, hseB]
            have hkk' : ¬(k = k') := fun hh => hk' hh.symm
            rw [show List.find? (fun e => decide (e.key = some k'))
                  (s.ety :: s.chain.map (·.ety))
                = List.find? (fun e => decide (e.key = some k')) (s.chain.map (·.ety))
              from List.find?_cons_of_neg _ (by simp [hrk, hkk'])]
        have hlen2 : (entriesList h₂).length + 1 = (entriesList h).length := by
          rw [show entriesList h₂ = _ from entriesList_of_array_set harr hil,
            entriesList_decomp' h i hil, ← hs, hseB, hseNew]
          simp
          omega
        rw [hes]
        exact ⟨h₂, hrem, hInv', rfl, hlen2, hlooks, rfl⟩
    · -- the match is a chain node
      have hne : rk ≠ k := fun hh => hcc ((hcmp k rk).mpr hh.symm)
      have hchfind : (s.chain.map (·.ety)).find? (fun e => decide (e.key = some k))
          = some e := by
        rw [hseB] at hlookup
        rw [show List.find? (fun e => decide (e.key = some k)) (s.ety :: s.chain.map (·.ety))
            = List.find? (fun e => decide (e.key = some k)) (s.chain.map (·.ety))
          from List.find?_cons_of_neg _ (by simp [hrk, hne])] at hlookup
        exact hlookup
      have hex : ∃ n ∈ s.chain, n.ety.key = some k := by
        have hmem := List.mem_of_find?_eq_some hchfind
        have hkey : e.key = some k := by
          have := List.find?_some hchfind
          simpa using this
        rcases List.mem_map.mp hmem with ⟨m, hm, rfl⟩
        exact ⟨m, hm, hkey⟩
      rcases exists_first_match s.chain hex with ⟨l₁, n, l₂, hsplit, hnk, hnomatch⟩
      have hen : e = n.ety := by
        rw [hsplit, List.map_append, List.map_cons, List.find?_append,
          find?_map_ety_none hnomatch, Option.none_or] at hchfind
        rw [show List.find? (fun e => decide (e.key = some k)) (n.ety :: l₂.map (·.ety))
            = some n.ety from List.find?_cons_of_pos _ (by simp [hnk])] at hchfind
        exact (Option.some.injEq _ _ ▸ hchfind).symm
      have hknotl₂ : ∀ m ∈ l₂, m.ety.key ≠ some k := by
        intro m hm hkm
        have hsub : (n.ety :: l₂.map (·.ety)).Sublist (slotEntries s) := by
          rw [hseB, hsplit, List.map_append, List.map_cons]
          exact (List.sublist_append_right _ _).cons _
        have hsub2 : ((n.ety :: l₂.map (·.ety)).filterMap (·.key)).Sublist (slotKeys s) :=
          hsub.filterMap _
        have hnd : ((n.ety :: l₂.map (·.ety)).filterMap (·.key)).Nodup :=
          hsknodup.sublist hsub2
        rw [List.filterMap_cons] at hnd
        rw [hnk] at hnd
        simp only at hnd
        exact (List.nodup_cons.mp hnd).1
          (List.mem_filterMap.mpr ⟨m.ety, List.mem_map.mpr ⟨m, hm, rfl⟩, hkm⟩)
      have hrem : hashmap_remove_entry hash cmp h k
          = ({ h with array := h.array.set i ⟨s.ety, l₁ ++ l₂⟩, count := h.count - 1 }, n.ety) := by
        simp only [hashmap_remove_entry]
        rw [← hidef, hgets]
        simp only [hrk]
        rw [if_neg hcc, hsplit, removeChain_match hcmp l₁ l₂ n hnk hnomatch]
      set h₂ : hashmap_t K V :=
        { h with array := h.array.set i ⟨s.ety, l₁ ++ l₂⟩, count := h.count - 1 } with hh₂
      have harr : h₂.array = h.array.set i ⟨s.ety, l₁ ++ l₂⟩ := rfl
      have hseNew : slotEntries (⟨s.ety, l₁ ++ l₂⟩ : hash_slot K V)
          = s.ety :: (l₁ ++ l₂).map (·.ety) := by
        simp [slotEntries, hrk]
      have hsubchain : ((l₁ ++ l₂).map (·.id)).Sublist (s.chain.map (·.id)) := by
        rw [hsplit]
        exact ((l₂.sublist_cons_self n).append_left l₁).map _
      have hInv' : Inv hash h₂ := by
        refine Inv_set_slot_dropkey hInv hiz ?_ ?_ ?_ ?_
        · refine ⟨by simp [hrk], fun _ => hswf.2.1 (by simp [hrk]), ?_⟩
          intro m hm
          refine hswf.2.2 m ?_
          rw [hsplit]
          rcases List.mem_append.mp hm with hm1 | hm2
          · exact List.mem_append.mpr (Or.inl hm1)
          · exact List.mem_append.mpr (Or.inr (List.mem_cons_of_mem n hm2))
        · have hsub : (slotEntries ⟨s.ety, l₁ ++ l₂⟩).Sublist (slotEntries s) := by
            rw [hseNew, hseB, hsplit]
            exact (((l₂.sublist_cons_self n).append_left l₁).map _).cons₂ _
          exact hsub.filterMap _
        · rw [hseNew, ← hs, hseB, hsplit]
          simp
          omega
        · rw [← hs]
          exact hsubchain
      have hsame : ∀ j < h.arraySize, j ≠ i → slotAt h₂ j = slotAt h j := by
        intro j hj hji
        rw [slotAt_of_array_set harr hil j, if_neg hji]
      have hsA : slotAt h₂ i = ⟨s.ety, l₁ ++ l₂⟩ := by
        rw [slotAt_of_array_set harr hil i, if_pos rfl]
      have hlooks : ∀ k', lookupVal h₂ k' = if k' = k then none else lookupVal h k' := by
        refine lookupVal_after_remove hInv hInv' rfl hkb hsame ?_ ?_
        · rw [hsA, hseNew]
          rw [show List.find? (fun e => decide (e.key = some k))
                (s.ety :: (l₁ ++ l₂).map (·.ety))
              = List.find? (fun e => decide (e.key = some k)) ((l₁ ++ l₂).map (·.ety))
            from List.find?_cons_of_neg _ (by simp [hrk, hne])]
          refine find?_map_ety_none ?_
          intro m hm
          rcases List.mem_append.mp hm with hm1 | hm2
          · exact hnomatch m hm1
          · exact hknotl₂ m hm2
        · intro k' hk'
          have hkk' : ¬(k = k') := fun hh => hk' hh.symm
          rw [hsA, hseNew, ← hs, hseB, hsplit]
          simp [List.map_append, List.find?_append, List.find?_cons, hnk, hkk']
      have hlen2 : (entriesList h₂).length + 1 = (entriesList h).length := by
        rw [show entriesList h₂ = _ from entriesList_of_array_set harr hil,
          entriesList_decomp' h i hil, ← hs, hseB, hseNew, hsplit]
        simp
        omega
      rw [hen]
      exact ⟨h₂, hrem, hInv', rfl, hlen2, hlooks, rfl⟩

/- ### Clearing -/

theorem slotDrop_eq (s : hash_slot K V) : slotDrop s = ((slotEntries s).length : Int) := by
  by_cases hk : s.ety.key.isSome <;> simp [slotDrop, slotEntries, hk] <;> push_cast <;> ring

theorem sum_slotDrop (l : List (hash_slot K V)) :
    (l.map slotDrop).sum = (((l.map slotEntries).flatten).length : Int) := by
  induction l with
  | nil => rfl
  | cons s rest ih =>
    rw [List.map_cons, List.sum_cons, ih, slotDrop_eq, List.map_cons, List.flatten_cons]
    push_cast
    simp

theorem hashmap_clear_count {hash : K → Nat} {h : hashmap_t K V} (hInv : Inv hash h) :
    (hashmap_clear h).count = 0 := by
  rw [show (hashmap_clear h).count = h.count - ((h.array.map slotDrop).sum) from rfl,
    sum_slotDrop, ← entriesList, ← hInv.count_eq]
  ring

theorem hashmap_clear_get {hash : K → Nat} {cmp : K → K → Int} {h : hashmap_t K V}
    (hInv : Inv hash h) (key : Option K) :
    hashmap_get hash cmp (hashmap_clear h) key = none := by
  cases key with
  | none => rfl
  | some k =>
    rw [hashmap_get]
    rw [if_pos (by rw [hashmap_count, hashmap_clear_count hInv])]

/- ### The iterator scan -/

theorem iterScan_eq (h : hashmap_t K V) (c : Nat) :
    iterScan h c
      = if c < h.arraySize then
          match h.array.get? c with
          | some s => if s.ety.key.isSome then c else iterScan h (c + 1)
          | none => iterScan h (c + 1)
        else c := by
  by_cases hlt : c < h.arraySize
  · have hd : h.arraySize - c = (h.arraySize - (c + 1)) + 1 := by omega
    rw [iterScan, hd, iterScanGo, if_pos hlt]
    rfl
  · have hd : h.arraySize - c = 0 := by omega
    rw [iterScan, hd, iterScanGo, if_neg hlt]

theorem iterScan_props (h : hashmap_t K V) : ∀ d c, h.arraySize - c ≤ d →
    (c ≤ iterScan h c) ∧
    (c ≤ h.arraySize → iterScan h c ≤ h.arraySize) ∧
    (iterScan h c < h.arraySize → ((slotAt h (iterScan h c)).ety.key).isSome) ∧
    (∀ j, c ≤ j → j < iterScan h c → (slotAt h j).ety.key = none) := by
  intro d
  induction d with
  | zero =>
    intro c hc
    have hge : ¬c < h.arraySize := by omega
    rw [iterScan_eq, if_neg hge]
    refine ⟨le_refl c, ?_, ?_, ?_⟩
    · intro hcs
      omega
    · intro hl
      exact absurd hl hge
    · intro j hj hj'
      omega
  | succ d ih =>
    intro c hc
    by_cases hlt : c < h.arraySize
    · cases hget : h.array.get? c with
      | some s =>
        have hsl : slotAt h c = s := by
          rw [slotAt, List.getD_eq_getElem?_getD, ← List.get?_eq_getElem?, hget]
          rfl
        by_cases hk : s.ety.key.isSome
        · have hstep : iterScan h c = c := by
            rw [iterScan_eq, if_pos hlt, hget]
            exact if_pos hk
          rw [hstep]
          refine ⟨le_refl c, fun _ => le_of_lt hlt, fun _ => by rw [hsl]; exact hk, ?_⟩
          intro j hj hj'
          omega
        · have hstep : iterScan h c = iterScan h (c + 1) := by
            rw [iterScan_eq, if_pos hlt, hget]
            exact if_neg hk
          rw [hstep]
          rcases ih (c + 1) (by omega) with ⟨h1, h2, h3, h4⟩
          refine ⟨by omega, fun _ => h2 (by omega), h3, ?_⟩
          intro j hj hj'
          rcases Nat.eq_or_lt_of_le hj with rfl | hj2
          · rw [hsl]
            exact Option.not_isSome_iff_eq_none.mp hk
          · exact h4 j hj2 hj'
      | none =>
        have hsl : slotAt h c = emptySlot := by
          rw [slotAt, List.getD_eq_getElem?_getD, ← List.get?_eq_getElem?, hget]
          rfl
        have hstep : iterScan h c = iterScan h (c + 1) := by
          rw [iterScan_eq, if_pos hlt, hget]
        rw [hstep]
        rcases ih (c + 1) (by omega) with ⟨h1, h2, h3, h4⟩
        refine ⟨by omega, fun _ => h2 (by omega), h3, ?_⟩
        intro j hj hj'
        rcases Nat.eq_or_lt_of_le hj with rfl | hj2
        · rw [hsl]
          rfl
        · exact h4 j hj2 hj'
    · rw [iterScan_eq, if_neg hlt]
      refine ⟨le_refl c, ?_, ?_, ?_⟩
      · intro hcs
        omega
      · intro hl
        exact absurd hl hlt
      · intro j hj hj'
        omega

theorem iterScan_is_id (h : hashmap_t K V) (c : Nat) (hc : c < h.arraySize)
    (hk : ((slotAt h c).ety.key).isSome) (hcl : c < h.array.length) :
    iterScan h c = c := by
  rw [iterScan_eq, if_pos hc, get?_eq_slotAt h c hcl]
  exact if_pos hk

/- ### Pointer dereference -/

theorem findInChain_none {id : Nat} {l : List (hash_node K V)}
    (hno : ∀ m ∈ l, m.id ≠ id) : findInChain id l = none := by
  induction l with
  | nil => rfl
  | cons m rest ih =>
    rw [findInChain, if_neg (hno m (List.mem_cons_self m rest))]
    exact ih fun m' hm' => hno m' (List.mem_cons_of_mem m hm')

theorem findInChain_found {l₁ l₂ : List (hash_node K V)} {n : hash_node K V}
    (hno : ∀ m ∈ l₁, m.id ≠ n.id) :
    findInChain n.id (l₁ ++ n :: l₂) = some (n, (l₂.head?).map (·.id)) := by
  induction l₁ with
  | nil =>
    rw [List.nil_append, findInChain, if_pos rfl]
  | cons m rest ih =>
    rw [List.cons_append, findInChain, if_neg (hno m (List.mem_cons_self m rest))]
    exact ih fun m' hm' => hno m' (List.mem_cons_of_mem m hm')

theorem chainIds_slot_sub {h : hashmap_t K V} {c : Nat} (hc : c < h.array.length) :
    ∀ a ∈ (slotAt h c).chain.map (·.id), a ∈ chainIds h := by
  intro a ha
  rw [chainIds_decomp h c hc]
  exact List.mem_append.mpr (Or.inl (List.mem_append.mpr (Or.inr ha)))

theorem derefNode_spec {hash : K → Nat} {h : hashmap_t K V} (hInv : Inv hash h)
    {c : Nat} (hc : c < h.array.length) {l₁ l₂ : List (hash_node K V)}
    {n : hash_node K V} (hsplit : (slotAt h c).chain = l₁ ++ n :: l₂) :
    derefNode h n.id = some (n, (l₂.head?).map (·.id)) := by
  have hidsn : (chainIds h).Nodup := hInv.ids_nodup
  have hdec := chainIds_decomp h c hc
  -- ids within this slot's chain are nodup
  have hslotids : (((slotAt h c).chain.map (·.id)).Nodup) := by
    refine hidsn.sublist ?_
    rw [hdec, List.append_assoc]
    exact (List.sublist_append_left _ _).trans (List.sublist_append_right _ _)
  have hnol₁ : ∀ m ∈ l₁, m.id ≠ n.id := by
    intro m hm he
    rw [hsplit, List.map_append, List.map_cons] at hslotids
    have h1 : n.id ∈ l₁.map (·.id) := List.mem_map.mpr ⟨m, hm, he⟩
    have := List.disjoint_of_nodup_append hslotids
    exact this h1 (List.mem_cons_self _ _)
  -- slots before c contain no node with this id
  have hinslot : n.id ∈ (slotAt h c).chain.map (·.id) := by
    rw [hsplit, List.map_append, List.map_cons]
    exact List.mem_append.mpr (Or.inr (List.mem_cons_self _ _))
  have hother : ∀ j, j < h.array.length → j ≠ c → ∀ m ∈ (slotAt h j).chain, m.id ≠ n.id := by
    intro j hj hne m hm he
    have hmem_j : n.id ∈ (slotAt h j).chain.map (·.id) := List.mem_map.mpr ⟨m, hm, he⟩
    -- n.id occurs in two distinct buckets: contradicts nodup of chainIds
    rcases Nat.lt_or_ge j c with hjc | hjc
    · have h1 : n.id ∈ idsPre h c := by
        rw [idsPre]
        refine List.mem_flatten.mpr ⟨(slotAt h j).chain.map (·.id), ?_, hmem_j⟩
        refine List.mem_map.mpr ⟨slotAt h j, ?_, rfl⟩
        rw [slotAt_eq_getElem h j hj]
        have hjt : j < (h.array.take c).length := by
          rw [List.length_take]
          omega
        rw [show h.array[j] = (h.array.take c)[j] from (List.getElem_take h.array).symm]
        exact List.getElem_mem _
      rw [hdec] at hidsn
      have hd := List.disjoint_of_nodup_append
        ((List.append_assoc _ _ _) ▸ hidsn)
      exact hd h1 (List.mem_append.mpr (Or.inl hinslot))
    · have hjc' : c < j := lt_of_le_of_ne hjc (fun e => hne e.symm)
      have h1 : n.id ∈ idsPost h c := by
        rw [idsPost]
        refine List.mem_flatten.mpr ⟨(slotAt h j).chain.map (·.id), ?_, hmem_j⟩
        refine List.mem_map.mpr ⟨slotAt h j, ?_, rfl⟩
        rw [slotAt_eq_getElem h j hj]
        have hjd : j - (c+1) < (h.array.drop (c+1)).length := by
          rw [List.length_drop]
          omega
        rw [show h.array[j] = (h.array.drop (c+1))[j - (c+1)] from by
          rw [List.getElem_drop h.array]
          congr 1
          omega]
        exact List.getElem_mem _
      rw [hdec] at hidsn
      have hd := List.disjoint_of_nodup_append hidsn
      exact hd (List.mem_append.mpr (Or.inr hinslot)) h1
  -- now evaluate findSome? across the array
  rw [derefNode]
  have harr : h.array = h.array.take c ++ slotAt h c :: h.array.drop (c + 1) := by
    rw [slotAt_eq_getElem h c hc]
    rw [← List.drop_eq_getElem_cons hc, List.take_append_drop]
  rw [harr, List.findSome?_append]
  have hpre : (h.array.take c).findSome? (fun s => findInChain n.id s.chain) = none := by
    rw [List.findSome?_eq_none]
    intro s hs
    rcases List.mem_iff_getElem.mp hs with ⟨j, hjlen, rfl⟩
    have hjc : j < c := by
      have := hjlen
      rw [List.length_take] at this
      omega
    have hjl : j < h.array.length := by
      have := hjlen
      rw [List.length_take] at this
      omega
    rw [show (h.array.take c)[j] = slotAt h j from by
      rw [List.getElem_take h.array, slotAt_eq_getElem h j hjl]]
    exact findInChain_none (hother j hjl (by omega))
  rw [hpre, Option.none_or, List.findSome?_cons, hsplit, findInChain_found hnol₁]

/- ### Running the iterator to completion -/

theorem keysFrom_zero (h : hashmap_t K V) : keysFrom h 0 = keysList h := by
  rw [keysFrom, List.drop_zero, keysList, entriesList]

theorem remFrom_zero (h : hashmap_t K V) : remFrom h 0 = (entriesList h).length := by
  rw [remFrom, List.drop_zero, entriesList]

theorem drop_eq_cons_slot (h : hashmap_t K V) (c : Nat) (hc : c < h.array.length) :
    h.array.drop c = slotAt h c :: h.array.drop (c + 1) := by
  rw [slotAt_eq_getElem h c hc]
  exact List.drop_eq_getElem_cons hc

theorem keysFrom_decomp (h : hashmap_t K V) (c : Nat) (hc : c < h.array.length) :
    keysFrom h c = (slotEntries (slotAt h c)).map (·.key) ++ keysFrom h (c + 1) := by
  rw [keysFrom, keysFrom, drop_eq_cons_slot h c hc, List.map_cons, List.flatten_cons,
    List.map_append]

theorem remFrom_decomp (h : hashmap_t K V) (c : Nat) (hc : c < h.array.length) :
    remFrom h c = (slotEntries (slotAt h c)).length + remFrom h (c + 1) := by
  rw [remFrom, remFrom, drop_eq_cons_slot h c hc, List.map_cons, List.flatten_cons,
    List.length_append]

theorem keysFrom_of_ge (h : hashmap_t K V) (c : Nat) (hc : h.array.length ≤ c) :
    keysFrom h c = [] := by
  rw [keysFrom, List.drop_eq_nil_of_le hc]
  rfl

theorem remFrom_of_ge (h : hashmap_t K V) (c : Nat) (hc : h.array.length ≤ c) :
    remFrom h c = 0 := by
  rw [remFrom, List.drop_eq_nil_of_le hc]
  rfl

theorem keysFrom_skip (h : hashmap_t K V) : ∀ d c c', c' - c ≤ d → c ≤ c' →
    (∀ j, c ≤ j → j < c' → (slotAt h j).ety.key = none) →
    keysFrom h c = keysFrom h c' ∧ remFrom h c = remFrom h c' := by
  intro d
  induction d with
  | zero =>
    intro c c' hd hle _
    have hcc : c = c' := by omega
    subst hcc
    exact ⟨rfl, rfl⟩
  | succ d ih =>
    intro c c' hd hle hnone
    rcases Nat.eq_or_lt_of_le hle with rfl | hlt
    · exact ⟨rfl, rfl⟩
    · have hck : (slotAt h c).ety.key = none := hnone c (le_refl c) hlt
      have hse : slotEntries (slotAt h c) = [] := by simp [slotEntries, hck]
      have hstep : keysFrom h c = keysFrom h (c + 1) ∧ remFrom h c = remFrom h (c + 1) := by
        by_cases hcl : c < h.array.length
        · rw [keysFrom_decomp h c hcl, remFrom_decomp h c hcl, hse]
          exact ⟨rfl, by simp⟩
        · rw [keysFrom_of_ge h c (by omega), keysFrom_of_ge h (c + 1) (by omega),
            remFrom_of_ge h c (by omega), remFrom_of_ge h (c + 1) (by omega)]
          exact ⟨rfl, rfl⟩
      have ihr := ih (c + 1) c' (by omega) (by omega) (fun j hj hj' => hnone j (by omega) hj')
      exact ⟨hstep.1.trans ihr.1, hstep.2.trans ihr.2⟩

theorem iterRun_split {hash : K → Nat} {h : hashmap_t K V} (hInv : Inv hash h) :
    ∀ fuel : Nat,
    (∀ c, c ≤ h.arraySize → remFrom h c + 1 ≤ fuel →
      iterRun h fuel ⟨c, none⟩ = some (keysFrom h c)) ∧
    (∀ c l₁ n l₂, c < h.arraySize → (slotAt h c).chain = l₁ ++ n :: l₂ →
      (n :: l₂).length + remFrom h (c + 1) + 1 ≤ fuel →
      iterRun h fuel ⟨c, some n.id⟩ =
        some ((n :: l₂).map (fun m => m.ety.key) ++ keysFrom h (c + 1))) := by
  intro fuel
  induction fuel with
  | zero =>
    constructor
    · intro c _ hf
      omega
    · intro c l₁ n l₂ _ _ hf
      omega
  | succ fuel ih =>
    obtain ⟨ihA, ihB⟩ := ih
    constructor
    · intro c hc hfuel
      obtain ⟨hcc', hc'le, hc'key, hskipped⟩ := iterScan_props h h.arraySize c (by omega)
      have hski := keysFrom_skip h (iterScan h c) c (iterScan h c) (by omega) hcc'
        (fun j hj hj' => hskipped j hj hj')
      rcases Nat.eq_or_lt_of_le (hc'le hc) with heq | hlt
      · have hnext : hashmap_iterator_next h (⟨c, none⟩ : hashmap_iterator_t)
            = some (none, ⟨iterScan h c, none⟩) := by
          simp [hashmap_iterator_next, heq]
        have hrun : iterRun h (fuel + 1) ⟨c, none⟩ = some [] := by
          rw [iterRun, hnext]
        rw [hrun]
        have hkf : keysFrom h c = [] := by
          rw [hski.1, keysFrom_of_ge h (iterScan h c) (by rw [hInv.len_eq]; omega)]
        rw [hkf]
      · have hc'len : iterScan h c < h.array.length := by rw [hInv.len_eq]; exact hlt
        have hget := get?_eq_slotAt h (iterScan h c) hc'len
        have hkey := hc'key hlt
        obtain ⟨k0, hk0⟩ := Option.isSome_iff_exists.mp hkey
        have hne : ¬iterScan h c = h.arraySize := by omega
        have hdecK := keysFrom_decomp h (iterScan h c) hc'len
        have hdecR := remFrom_decomp h (iterScan h c) hc'len
        have hseC : slotEntries (slotAt h (iterScan h c))
            = (slotAt h (iterScan h c)).ety
              :: (slotAt h (iterScan h c)).chain.map (·.ety) := by
          simp [slotEntries, hkey]
        cases hchain : (slotAt h (iterScan h c)).chain with
        | nil =>
          have hnext : hashmap_iterator_next h (⟨c, none⟩ : hashmap_iterator_t)
              = some (some k0, ⟨iterScan h c + 1, none⟩) := by
            simp [hashmap_iterator_next, hne, getElem?_eq_slotAt h (iterScan h c) hc'len,
              hchain, hk0]
          have hrun : iterRun h (fuel + 1) ⟨c, none⟩
              = (iterRun h fuel ⟨iterScan h c + 1, none⟩).map (fun l => some k0 :: l) := by
            rw [iterRun, hnext]
          have hlen1 : (slotEntries (slotAt h (iterScan h c))).length = 1 := by
            rw [hseC, hchain]
            rfl
          rw [hrun, ihA (iterScan h c + 1) (by omega) (by
            have h1 := hski.2
            omega), Option.map_some']
          rw [hski.1, hdecK, hseC, hchain]
          simp [hk0]
        | cons nd tl =>
          have hnext : hashmap_iterator_next h (⟨c, none⟩ : hashmap_iterator_t)
              = some (some k0, ⟨iterScan h c, some nd.id⟩) := by
            simp [hashmap_iterator_next, hne, getElem?_eq_slotAt h (iterScan h c) hc'len,
              hchain, hk0]
          have hrun : iterRun h (fuel + 1) ⟨c, none⟩
              = (iterRun h fuel ⟨iterScan h c, some nd.id⟩).map (fun l => some k0 :: l) := by
            rw [iterRun, hnext]
          have hsplit : (slotAt h (iterScan h c)).chain = [] ++ nd :: tl := by
            rw [hchain]
            rfl
          have hlenC : (slotEntries (slotAt h (iterScan h c))).length
              = 1 + (nd :: tl).length := by
            rw [hseC, hchain]
            simp
            omega
          rw [hrun, ihB (iterScan h c) [] nd tl hlt hsplit (by
            have h1 := hski.2
            omega), Option.map_some']
          rw [hski.1, hdecK, hseC, hchain]
          simp [hk0]
    · intro c l₁ n l₂ hc hsplit hfuel
      have hclen : c < h.array.length := by rw [hInv.len_eq]; exact hc
      have hget := get?_eq_slotAt h c hclen
      have hderef := derefNode_spec hInv hclen hsplit
      have hnmem : n ∈ (slotAt h c).chain := by
        rw [hsplit]
        exact List.mem_append.mpr (Or.inr (List.mem_cons_self _ _))
      have hwf := hInv.slots_wf (slotAt h c) (slotAt_mem h c hclen)
      obtain ⟨kn, hkn⟩ := Option.isSome_iff_exists.mp (hwf.2.2 n hnmem).1
      obtain ⟨hd, tl, hcons⟩ : ∃ hd tl, (slotAt h c).chain = hd :: tl := by
        cases hch : (slotAt h c).chain with
        | nil =>
          exfalso
          have hlb : (l₁ ++ n :: l₂).length = 0 := by
            rw [← hsplit, hch]
            rfl
          simp [List.length_append] at hlb
        | cons a b => exact ⟨a, b, rfl⟩
      cases l₂ with
      | nil =>
        have hnext : hashmap_iterator_next h (⟨c, some n.id⟩ : hashmap_iterator_t)
            = some (some kn, ⟨c + 1, none⟩) := by
          simp [hashmap_iterator_next, getElem?_eq_slotAt h c hclen, hcons, hderef, hkn]
        have hrun : iterRun h (fuel + 1) ⟨c, some n.id⟩
            = (iterRun h fuel ⟨c + 1, none⟩).map (fun l => some kn :: l) := by
          rw [iterRun, hnext]
        have hL : (n :: ([] : List (hash_node K V))).length = 1 := rfl
        rw [hrun, ihA (c + 1) (by omega) (by omega), Option.map_some']
        simp [hkn]
      | cons m l₂' =>
        have hnext : hashmap_iterator_next h (⟨c, some n.id⟩ : hashmap_iterator_t)
            = some (some kn, ⟨c, some m.id⟩) := by
          simp [hashmap_iterator_next, getElem?_eq_slotAt h c hclen, hcons, hderef, hkn]
        have hrun : iterRun h (fuel + 1) ⟨c, some n.id⟩
            = (iterRun h fuel ⟨c, some m.id⟩).map (fun l => some kn :: l) := by
          rw [iterRun, hnext]
        have hsplit' : (slotAt h c).chain = (l₁ ++ [n]) ++ m :: l₂' := by
          rw [hsplit]
          simp
        have hL : (n :: m :: l₂').length = (m :: l₂').length + 1 := rfl
        rw [hrun, ihB c (l₁ ++ [n]) m l₂' hc hsplit' (by omega), Option.map_some']
        simp [hkn]

theorem iterRun_complete {hash : K → Nat} {h : hashmap_t K V} (hInv : Inv hash h)
    {fuel : Nat} (hfuel : (entriesList h).length + 1 ≤ fuel) :
    iterRun h fuel hashmap_iterator_begin = some (keysList h) := by
  have hrem := remFrom_zero h
  have hkf := keysFrom_zero h
  have hrun := (iterRun_split hInv fuel).1 0 (Nat.zero_le _) (by omega)
  rw [show (hashmap_iterator_begin : hashmap_iterator_t) = ⟨0, none⟩ from rfl, hrun, hkf]

/- ### Bulk insertion, and the no-growth replace path -/

theorem entriesList_new (n : Nat) : entriesList (hashmap_new n : hashmap_t K V) = [] := by
  rw [entriesList,
    show (hashmap_new n : hashmap_t K V).array = List.replicate n emptySlot from rfl,
    List.map_replicate, show slotEntries (emptySlot : hash_slot K V) = [] from rfl]
  exact flatten_replicate_nil n

theorem lookupVal_new [DecidableEq K] (n : Nat) (k : K) :
    lookupVal (hashmap_new n : hashmap_t K V) k = none := by
  rw [lookupVal, lookupEnt, entriesList_new]
  rfl

theorem putList_spec [DecidableEq K] {hash : K → Nat} {cmp : K → K → Int}
    (hcmp : ∀ a b : K, cmp a b = 0 ↔ a = b) :
    ∀ (pairs : List (K × V)) (h : hashmap_t K V), Inv hash h →
    ∃ h', putList hash cmp pairs h = some h' ∧ Inv hash h' ∧
      (∀ k, (lookupVal h' k).isSome
        ↔ k ∈ pairs.map Prod.fst ∨ (lookupVal h k).isSome) := by
  intro pairs
  induction pairs with
  | nil =>
    intro h hInv
    exact ⟨h, rfl, hInv, fun k => by simp⟩
  | cons p rest ih =>
    intro h hInv
    rcases hashmap_put_spec hcmp hInv p.1 p.2 with ⟨h1, prev, heq, hpost, _, _⟩
    rcases ih h1 hpost.1 with ⟨h', heq', hInv', hmem⟩
    have hstep : putList hash cmp (p :: rest) h = putList hash cmp rest h1 := by
      rw [putList, heq]
    refine ⟨h', by rw [hstep, heq'], hInv', ?_⟩
    intro k
    have hlk := hpost.2.2.1 k
    rw [hmem k, hlk]
    by_cases hkp : k = p.1
    · simp [hkp]
    · simp [hkp]

theorem cCmp_ok : ∀ a b : Nat, cCmp a b = 0 ↔ a = b := by
  intro a b
  show (a : Int) - (b : Int) = 0 ↔ a = b
  omega

theorem hashmap_put_nogrow (hash : K → Nat) (cmp : K → K → Int)
    (h : hashmap_t K V) (k : K) (v : V) (hng : 2 * h.count < (h.arraySize : Int)) :
    hashmap_put hash cmp h (some k) (some v) = putCore hash cmp h k v := by
  have h1 : hashmap_put hash cmp h (some k) (some v)
      = putF hash cmp ((2 * h.count.natAbs + 2) + 1) h (some k) (some v) := rfl
  rw [h1, putF_succ_eq,
    show ensureWith (fun h' key' val' => putF hash cmp (2 * h.count.natAbs + 2) h' key' val') h
      = some h from by rw [ensureWith, if_pos hng]]

theorem putCore_replace_struct [DecidableEq K] {hash : K → Nat} {cmp : K → K → Int}
    (hcmp : ∀ a b : K, cmp a b = 0 ↔ a = b) {h : hashmap_t K V} (hInv : Inv hash h)
    {k : K} {e : hash_entry K V} (hfound : lookupEnt h k = some e) (v : V) :
    ∃ h', putCore hash cmp h k v = some (h', e.val) ∧
      chainIds h' = chainIds h ∧ keyList h' = keyList h ∧
      h'.count = h.count ∧ h'.arraySize = h.arraySize := by
  have hiz : doProbe hash h k < h.arraySize := Nat.mod_lt _ hInv.size_pos
  have hil : doProbe hash h k < h.array.length := by rw [hInv.len_eq]; exact hiz
  have hgets : h.array.get? (doProbe hash h k) = some (slotAt h (doProbe hash h k)) :=
    get?_eq_slotAt h _ hil
  set i := doProbe hash h k with hidef
  set s := slotAt h i with hs
  have hkb : hash k % h.arraySize = i := rfl
  have hlookup : (slotEntries s).find? (fun x => decide (x.key = some k)) = some e := by
    rw [← hfound, lookupEnt_eq_probe_find hInv k, hkb, ← hs]
  cases hrk : s.ety.key with
  | none =>
    exfalso
    have hse : slotEntries s = [] := by simp [slotEntries, hrk]
    rw [hse] at hlookup
    exact Option.noConfusion hlookup
  | some rk =>
    have hseB : slotEntries s = s.ety :: s.chain.map (·.ety) := by
      simp [slotEntries, hrk]
    by_cases hcc : cmp k rk = 0
    · have hkrk : k = rk := (hcmp k rk).mp hcc
      have hee : e = s.ety := by
        rw [hseB] at hlookup
        rw [show List.find? (fun x => decide (x.key = some k)) (s.ety :: s.chain.map (·.ety))
            = some s.ety from List.find?_cons_of_pos _ (by simp [hrk, hkrk])] at hlookup
        exact (Option.some.inj hlookup).symm
      have hput : putCore hash cmp h k v
          = some ({ h with array := h.array.set i ⟨⟨s.ety.key, some v⟩, s.chain⟩ },
              s.ety.val) := by
        simp only [putCore]
        rw [← hidef, hgets]
        simp only [hrk]
        rw [if_pos hcc]
      refine ⟨{ h with array := h.array.set i ⟨⟨s.ety.key, some v⟩, s.chain⟩ },
        ?_, ?_, ?_, rfl, rfl⟩
      · rw [hput, hee]
      · rw [chainIds_of_array_set rfl hil, chainIds_decomp h i hil, ← hs]
      · rw [keyList_of_array_set rfl hil, keyList_decomp h i hil, ← hs]
        have hsk : slotKeys (⟨⟨s.ety.key, some v⟩, s.chain⟩ : hash_slot K V) = slotKeys s := by
          simp [slotKeys, slotEntries, hrk]
        rw [hsk]
    · have hne : s.ety.key ≠ some k := by
        rw [hrk]
        intro hek
        exact hcc ((hcmp k rk).mpr (Option.some.inj hek).symm)
      have hchainfind : (s.chain.map (·.ety)).find? (fun x => decide (x.key = some k))
          = some e := by
        rw [hseB] at hlookup
        rw [show List.find? (fun x => decide (x.key = some k)) (s.ety :: s.chain.map (·.ety))
            = List.find? (fun x => decide (x.key = some k)) (s.chain.map (·.ety))
          from List.find?_cons_of_neg _ (by simp [hne])] at hlookup
        exact hlookup
      have hexists : ∃ n ∈ s.chain, n.ety.key = some k := by
        have hmem := List.mem_of_find?_eq_some hchainfind
        have hp := List.find?_some hchainfind
        rcases List.mem_map.mp hmem with ⟨n, hn, hne'⟩
        exact ⟨n, hn, by rw [hne']; exact of_decide_eq_true hp⟩
      rcases exists_first_match s.chain hexists with ⟨l₁, nd, l₂, hsplit, hkeynd, hnol⟩
      have hee : e = nd.ety := by
        rw [hsplit, List.map_append, List.map_cons, List.find?_append] at hchainfind
        have hl₁none : (l₁.map (·.ety)).find? (fun x => decide (x.key = some k)) = none := by
          rw [List.find?_eq_none]
          intro x hx
          rcases List.mem_map.mp hx with ⟨m, hm, rfl⟩
          simp [hnol m hm]
        rw [hl₁none, Option.none_or] at hchainfind
        rw [show List.find? (fun x => decide (x.key = some k)) (nd.ety :: l₂.map (·.ety))
            = some nd.ety from List.find?_cons_of_pos _ (by simp [hkeynd])] at hchainfind
        exact (Option.some.inj hchainfind).symm
      have hputC := putChain_match hcmp v h.nextId l₁ l₂ nd hkeynd hnol
      have hput : putCore hash cmp h k v
          = some ({ h with
              array := h.array.set i ⟨s.ety, l₁ ++ ⟨nd.id, ⟨some k, some v⟩⟩ :: l₂⟩,
              count := h.count + 0,
              nextId := h.nextId + 0 }, nd.ety.val) := by
        simp only [putCore]
        rw [← hidef, hgets]
        simp only [hrk]
        rw [if_neg hcc]
        rw [hsplit, hputC]
        rfl
      refine ⟨{ h with
          array := h.array.set i ⟨s.ety, l₁ ++ ⟨nd.id, ⟨some k, some v⟩⟩ :: l₂⟩,
          count := h.count + 0,
          nextId := h.nextId + 0 }, ?_, ?_, ?_, ?_, rfl⟩
      · rw [hput, hee]
      · rw [chainIds_of_array_set rfl hil, chainIds_decomp h i hil, ← hs, hsplit]
        simp
      · rw [keyList_of_array_set rfl hil, keyList_decomp h i hil, ← hs]
        have hsk : slotKeys (⟨s.ety, l₁ ++ ⟨nd.id, ⟨some k, some v⟩⟩ :: l₂⟩ : hash_slot K V)
            = slotKeys s := by
          simp [slotKeys, slotEntries, hrk, hsplit, hkeynd]
        rw [hsk]
      · show h.count + 0 = h.count
        omega

/- ### The claims -/

/-- C1: refuted as stated.  Removing the entry the iterator is positioned
on and then calling Next dereferences the freed chain node whenever the
bucket's chain still holds another node: the guard in
`hashmap_iterator_next` only detects a chain that vanished entirely.  In
the model the dangling dereference surfaces as `hashmap_iterator_next`
returning `none` (undefined behaviour).  Concretely, with every key hashed
to bucket 0, the first Next yields key 1 with the cursor on the first
chain node; removing key 1 promotes key 2 into the root (the chain keeps
one node), and the following Next dereferences the freed node. -/
theorem claim1_remove_current_then_next_dangles :
    ((putList cHash cCmp [(1, 10), (2, 20), (3, 30)] (hashmap_new 16)).bind fun h₁ =>
      (hashmap_iterator_next h₁ hashmap_iterator_begin).bind fun r =>
        some (r.1, hashmap_iterator_next (hashmap_remove_entry cHash cCmp h₁ 1).1 r.2))
      = some (some 1, none) := by
  decide

/-- C2: refuted as stated.  Removing a not-yet-visited key during
iteration is not "simply skipped": when the removed key lives in the chain
node the cursor currently points at, the next Next call dereferences the
freed node (model: `none` = undefined behaviour), and the not-yet-visited
key 3 is never yielded.  Same map as C1 (all keys in bucket 0): Next
yields key 1, then key 2 (unvisited, the cursor's own node) is removed. -/
theorem claim2_remove_unvisited_then_next_dangles :
    ((putList cHash cCmp [(1, 10), (2, 20), (3, 30)] (hashmap_new 16)).bind fun h₁ =>
      (hashmap_iterator_next h₁ hashmap_iterator_begin).bind fun r =>
        some (r.1, hashmap_iterator_next (hashmap_remove_entry cHash cCmp h₁ 2).1 r.2))
      = some (some 1, none) := by
  decide

/-- C3 (counterexample): with initial array size 4, the array size is
already 8 after THREE puts of distinct keys — the claimed "size still 4
after three Puts, growth on the fourth" is wrong, because
`__ensurecapacity` tests the load factor before the insertion, so the
third put sees 2/4 ≥ 0.5 and grows first. -/
theorem claim3_counterexample :
    (putList tHash cCmp [(1, 10), (2, 20), (3, 30)] (hashmap_new 4)).map hashmap_size
      = some 8 := by
  rfl

/-- C3 (amended): with initial array size 4, the size is still 4 after two
puts of distinct non-null keys; the THIRD put triggers the grow to 8
before its insertion (load factor 2/4 ≥ 0.5), and all three keys remain
retrievable afterwards. -/
theorem claim3_growth_on_third_put [DecidableEq K] {hash : K → Nat} {cmp : K → K → Int}
    (hcmp : ∀ a b : K, cmp a b = 0 ↔ a = b) (k₁ k₂ k₃ : K) (v₁ v₂ v₃ : V)
    (h12 : k₁ ≠ k₂) (h13 : k₁ ≠ k₃) (h23 : k₂ ≠ k₃) :
    ∃ h₁ p₁ h₂ p₂ h₃ p₃,
      hashmap_put hash cmp (hashmap_new 4) (some k₁) (some v₁) = some (h₁, p₁) ∧
      hashmap_put hash cmp h₁ (some k₂) (some v₂) = some (h₂, p₂) ∧
      hashmap_size h₁ = 4 ∧ hashmap_size h₂ = 4 ∧
      hashmap_put hash cmp h₂ (some k₃) (some v₃) = some (h₃, p₃) ∧
      hashmap_size h₃ = 8 ∧
      hashmap_get hash cmp h₃ (some k₁) = some v₁ ∧
      hashmap_get hash cmp h₃ (some k₂) = some v₂ ∧
      hashmap_get hash cmp h₃ (some k₃) = some v₃ := by
  have hInv0 : Inv hash (hashmap_new 4 : hashmap_t K V) := Inv_new hash 4 (by omega)
  have hent0 : entriesList (hashmap_new 4 : hashmap_t K V) = [] := entriesList_new 4
  have hcnt0 : (hashmap_new 4 : hashmap_t K V).count = 0 := rfl
  have hsz0 : (hashmap_new 4 : hashmap_t K V).arraySize = 4 := rfl
  rcases hashmap_put_spec hcmp hInv0 k₁ v₁ with ⟨h₁, p₁, he₁, hpost₁, hng₁, _⟩
  have hsz1 : h₁.arraySize = 4 := by
    rw [hng₁ (by rw [hcnt0, hsz0]; norm_num), hsz0]
  have hlk1 : lookupEnt (hashmap_new 4 : hashmap_t K V) k₁ = none := by
    rw [lookupEnt, hent0]
    rfl
  have hlen1 : (entriesList h₁).length = 1 := by
    have hL := hpost₁.2.2.2.2.2
    rw [hent0, hlk1] at hL
    simpa using hL
  have hcnt1 : h₁.count = 1 := by
    rw [hpost₁.1.count_eq, hlen1]
    rfl
  have hlv1 : ∀ k', lookupVal h₁ k' = if k' = k₁ then some v₁ else none := by
    intro k'
    rw [hpost₁.2.2.1 k', lookupVal_new]
  rcases hashmap_put_spec hcmp hpost₁.1 k₂ v₂ with ⟨h₂, p₂, he₂, hpost₂, hng₂, _⟩
  have hsz2 : h₂.arraySize = 4 := by
    rw [hng₂ (by rw [hcnt1, hsz1]; norm_num), hsz1]
  have hlk2 : lookupEnt h₁ k₂ = none := by
    have hiff : (lookupVal h₁ k₂).isSome ↔ (lookupEnt h₁ k₂).isSome :=
      lookupVal_isSome_iff hpost₁.1
    rw [hlv1 k₂, if_neg (fun ee => h12 ee.symm)] at hiff
    cases hlk : lookupEnt h₁ k₂ with
    | none => rfl
    | some x =>
      rw [hlk] at hiff
      simp at hiff
  have hlen2 : (entriesList h₂).length = 2 := by
    have hL := hpost₂.2.2.2.2.2
    rw [hlen1, hlk2] at hL
    simpa using hL
  have hcnt2 : h₂.count = 2 := by
    rw [hpost₂.1.count_eq, hlen2]
    rfl
  have hlv2 := hpost₂.2.2.1
  rcases hashmap_put_spec hcmp hpost₂.1 k₃ v₃ with ⟨h₃, p₃, he₃, hpost₃, _, hg₃⟩
  have hsz3 : h₃.arraySize = 8 := by
    rw [hg₃ (by rw [hcnt2, hsz2]; norm_num) (by rw [hlen2, hsz2]; norm_num), hsz2]
  have hlv3 := hpost₃.2.2.1
  refine ⟨h₁, p₁, h₂, p₂, h₃, p₃, he₁, he₂, hsz1, hsz2, he₃, hsz3, ?_, ?_, ?_⟩
  · rw [hashmap_get_eq_lookupVal hcmp hpost₃.1, hlv3 k₁, if_neg h13, hlv2 k₁,
      if_neg h12, hlv1 k₁, if_pos rfl]
  · rw [hashmap_get_eq_lookupVal hcmp hpost₃.1, hlv3 k₂, if_neg h23, hlv2 k₂, if_pos rfl]
  · rw [hashmap_get_eq_lookupVal hcmp hpost₃.1, hlv3 k₃, if_pos rfl]

theorem claim3_growth_witness :
    ∃ h₁ p₁ h₂ p₂ h₃ p₃,
      hashmap_put tHash cCmp (hashmap_new 4) (some 1) (some 10) = some (h₁, p₁) ∧
      hashmap_put tHash cCmp h₁ (some 2) (some 20) = some (h₂, p₂) ∧
      hashmap_size h₁ = 4 ∧ hashmap_size h₂ = 4 ∧
      hashmap_put tHash cCmp h₂ (some 3) (some 30) = some (h₃, p₃) ∧
      hashmap_size h₃ = 8 ∧
      hashmap_get tHash cCmp h₃ (some 1) = some 10 ∧
      hashmap_get tHash cCmp h₃ (some 2) = some 20 ∧
      hashmap_get tHash cCmp h₃ (some 3) = some 30 :=
  claim3_growth_on_third_put cCmp_ok 1 2 3 10 20 30 (by decide) (by decide) (by decide)

/-- C4: inserting any list of pairs with distinct (non-null) keys into a
fresh map of any positive initial size, then running a fresh iterator to
completion, yields exactly one key per inserted pair: the output list is
duplicate-free and is a permutation of the inserted keys, for every hash
function (so regardless of collisions). -/
theorem claim4_iterate_roundtrip [DecidableEq K] (hash : K → Nat) (cmp : K → K → Int)
    (hcmp : ∀ a b : K, cmp a b = 0 ↔ a = b) (n : Nat) (hn : 0 < n)
    (pairs : List (K × V)) (hnd : (pairs.map Prod.fst).Nodup) :
    ∃ h' out, putList hash cmp pairs (hashmap_new n) = some h' ∧
      iterRun h' (pairs.length + 1) hashmap_iterator_begin = some out ∧
      out.Nodup ∧ out.Perm (pairs.map (fun p => some p.1)) := by
  rcases putList_spec hcmp pairs (hashmap_new n) (Inv_new hash n hn) with
    ⟨h', heq, hInv', hmem⟩
  have hmem' : ∀ k, k ∈ keyList h' ↔ k ∈ pairs.map Prod.fst := by
    intro k
    rw [← lookupEnt_isSome_iff, ← lookupVal_isSome_iff hInv', hmem k, lookupVal_new]
    simp
  have hperm : (keyList h').Perm (pairs.map Prod.fst) :=
    (List.perm_ext_iff_of_nodup hInv'.keys_nodup hnd).mpr hmem'
  have hlen : (entriesList h').length = pairs.length := by
    have h1 := hperm.length_eq
    rw [List.length_map] at h1
    have h2 : (entriesList h').length = (keyList h').length := by
      calc (entriesList h').length = (keysList h').length := (List.length_map _ _).symm
        _ = ((keyList h').map some).length := by rw [keysList_eq_map_some hInv']
        _ = (keyList h').length := List.length_map _ _
    omega
  refine ⟨h', (keyList h').map some, heq, ?_, ?_, ?_⟩
  · rw [← keysList_eq_map_some hInv']
    exact iterRun_complete hInv' (by omega)
  · exact hInv'.keys_nodup.map (Option.some_injective _)
  · have hp := hperm.map some
    rw [List.map_map] at hp
    exact hp

theorem claim4_witness :
    ∃ h' out, putList tHash cCmp [(1, 10), (2, 20), (3, 30)] (hashmap_new 4) = some h' ∧
      iterRun h' (3 + 1) hashmap_iterator_begin = some out ∧
      out.Nodup ∧ out.Perm [some 1, some 2, some 3] :=
  claim4_iterate_roundtrip tHash cCmp cCmp_ok 4 (by decide)
    [(1, 10), (2, 20), (3, 30)] (by decide)

theorem Inv_wm : Inv tHash wm := by
  refine ⟨?_, ?_, ?_, ?_, ?_, ?_, ?_, ?_⟩ <;> decide

/-- C5: growing by any factor ≥ 1 (the interface's stated domain)
preserves the live count, the key set, and every association: `Count()`
and the full key set are identical before and after the resize, and every
key `Get`s the same value afterwards. -/
theorem claim5_grow_preserves [DecidableEq K] {hash : K → Nat} {cmp : K → K → Int}
    (hcmp : ∀ a b : K, cmp a b = 0 ↔ a = b) {h : hashmap_t K V}
    (hInv : Inv hash h) (factor : Nat) (hfac : 1 ≤ factor) :
    ∃ h', hashmap_increase_capacity hash cmp h factor = some h' ∧
      hashmap_count h' = hashmap_count h ∧
      (∀ k, k ∈ keyList h' ↔ k ∈ keyList h) ∧
      (∀ k, hashmap_get hash cmp h' (some k) = hashmap_get hash cmp h (some k)) := by
  rcases hashmap_increase_capacity_spec hcmp hInv factor hfac with
    ⟨h', heq, hInv', hcnt, hlen, hlooks, hsz⟩
  refine ⟨h', heq, hcnt, ?_, ?_⟩
  · intro k
    rw [← lookupEnt_isSome_iff, ← lookupEnt_isSome_iff, ← lookupVal_isSome_iff hInv',
      ← lookupVal_isSome_iff hInv, hlooks k]
  · intro k
    rw [hashmap_get_eq_lookupVal hcmp hInv', hashmap_get_eq_lookupVal hcmp hInv, hlooks k]

theorem claim5_witness :
    ∃ h', hashmap_increase_capacity tHash cCmp wm 2 = some h' ∧
      hashmap_count h' = hashmap_count wm ∧
      (∀ k, k ∈ keyList h' ↔ k ∈ keyList wm) ∧
      (∀ k, hashmap_get tHash cCmp h' (some k) = hashmap_get tHash cCmp wm (some k)) :=
  claim5_grow_preserves cCmp_ok Inv_wm 2 (by decide)

/-- C6: on any well-formed map, `Get(key)` immediately after
`Put(key, value)` (both non-null) returns exactly that value. -/
theorem claim6_get_after_put [DecidableEq K] {hash : K → Nat} {cmp : K → K → Int}
    (hcmp : ∀ a b : K, cmp a b = 0 ↔ a = b) {h : hashmap_t K V}
    (hInv : Inv hash h) (k : K) (v : V) :
    ∃ h' prev, hashmap_put hash cmp h (some k) (some v) = some (h', prev) ∧
      hashmap_get hash cmp h' (some k) = some v := by
  rcases hashmap_put_spec hcmp hInv k v with ⟨h', prev, heq, hpost, _, _⟩
  refine ⟨h', prev, heq, ?_⟩
  rw [hashmap_get_eq_lookupVal hcmp hpost.1, hpost.2.2.1 k, if_pos rfl]

theorem claim6_witness :
    ∃ h' prev, hashmap_put tHash cCmp (hashmap_new 4) (some 1) (some 10) = some (h', prev) ∧
      hashmap_get tHash cCmp h' (some 1) = some 10 :=
  claim6_get_after_put cCmp_ok (Inv_new tHash 4 (by decide)) 1 10

/-- C7: `hashmap_remove_entry` on an absent key leaves the map (hence its
count and contents) untouched and reports through the null-sentinel entry,
and the value wrapper returns null; on a present key it decrements the
count by exactly one and hands the matched (key, value) pair out through
the out-parameter, the wrapper returning its value. -/
theorem claim7_remove_semantics [DecidableEq K] {hash : K → Nat} {cmp : K → K → Int}
    (hcmp : ∀ a b : K, cmp a b = 0 ↔ a = b) {h : hashmap_t K V}
    (hInv : Inv hash h) (k : K) :
    (lookupEnt h k = none →
      hashmap_remove_entry hash cmp h k = (h, ⟨none, none⟩) ∧
      hashmap_remove hash cmp h k = (h, none)) ∧
    (∀ e, lookupEnt h k = some e →
      e.key = some k ∧
      ∃ h', hashmap_remove_entry hash cmp h k = (h', e) ∧
        h'.count = h.count - 1 ∧
        hashmap_remove hash cmp h k = (h', e.val)) := by
  constructor
  · intro hnone
    have h1 := hashmap_remove_entry_notfound hcmp hInv hnone
    exact ⟨h1, by simp [hashmap_remove, h1]⟩
  · intro e hsome
    have hek := (lookupEnt_eq_some hsome).2
    rcases hashmap_remove_entry_found hcmp hInv hsome with ⟨h', heq, _, hcnt, _, _, _⟩
    exact ⟨hek, h', heq, hcnt, by simp [hashmap_remove, heq]⟩

theorem claim7_witness :
    (lookupEnt wm 1 = none →
      hashmap_remove_entry tHash cCmp wm 1 = (wm, ⟨none, none⟩) ∧
      hashmap_remove tHash cCmp wm 1 = (wm, none)) ∧
    (∀ e, lookupEnt wm 1 = some e →
      e.key = some 1 ∧
      ∃ h', hashmap_remove_entry tHash cCmp wm 1 = (h', e) ∧
        h'.count = wm.count - 1 ∧
        hashmap_remove tHash cCmp wm 1 = (h', e.val)) :=
  claim7_remove_semantics cCmp_ok Inv_wm 1

/-- C8 (counterexample): putting an existing key does NOT always leave the
other entries' chain membership intact.  Map: size 4, key 1 at the root of
bucket 1 and key 5 as a chain node of the same bucket (5 mod 4 = 1), so
count = 2.  `Put(1, 99)` first runs `__ensurecapacity` (2/4 ≥ 0.5 fires a
grow to 8), which rebuilds every bucket: afterwards key 5 sits at the ROOT
of slot 5 and bucket 1's chain is empty — even though the put returned the
previous value (10) and left the count at 2, as the claim says. -/
theorem claim8_counterexample :
    ((putList tHash cCmp [(1, 10), (5, 50)] (hashmap_new 4)).bind fun h =>
      (hashmap_put tHash cCmp h (some 1) (some 99)).map fun r =>
        (r.2, hashmap_count r.1,
         (slotAt h 1).chain.map (fun n => n.ety.key),
         (slotAt r.1 1).chain.map (fun n => n.ety.key),
         (slotAt r.1 5).ety.key))
      = some (some 10, 2, [some 5], [], some 5) := by
  decide

/-- C8 (amended): when the load-factor check does not fire
(`2 * count < arraySize`), putting an existing key replaces the value in
place: the previous value is returned, the count and array size are
unchanged, every other association reads the same, and the structure is
untouched — the allocated chain-node addresses and the full key layout
(bucket order included) are identical. -/
theorem claim8_replace_in_place [DecidableEq K] {hash : K → Nat} {cmp : K → K → Int}
    (hcmp : ∀ a b : K, cmp a b = 0 ↔ a = b) {h : hashmap_t K V} (hInv : Inv hash h)
    {k : K} {e : hash_entry K V} (hfound : lookupEnt h k = some e) (v : V)
    (hng : 2 * h.count < (h.arraySize : Int)) :
    ∃ h', hashmap_put hash cmp h (some k) (some v) = some (h', e.val) ∧
      hashmap_count h' = hashmap_count h ∧
      hashmap_get hash cmp h' (some k) = some v ∧
      (∀ k', k' ≠ k →
        hashmap_get hash cmp h' (some k') = hashmap_get hash cmp h (some k')) ∧
      h'.arraySize = h.arraySize ∧
      chainIds h' = chainIds h ∧
      keyList h' = keyList h := by
  rcases putCore_replace_struct hcmp hInv hfound v with ⟨h', hpc, hids, hkeys, hcnt, hsz⟩
  rcases putCore_spec hcmp hInv k v with ⟨h'', prev, hpc', hpost, _, _⟩
  rw [hpc] at hpc'
  have h1 : h' = h'' := congrArg Prod.fst (Option.some.inj hpc')
  subst h1
  have hInv' := hpost.1
  refine ⟨h', by rw [hashmap_put_nogrow hash cmp h k v hng, hpc], ?_, ?_, ?_, hsz, hids, hkeys⟩
  · exact hcnt
  · rw [hashmap_get_eq_lookupVal hcmp hInv', hpost.2.2.1 k, if_pos rfl]
  · intro k' hk'
    rw [hashmap_get_eq_lookupVal hcmp hInv', hashmap_get_eq_lookupVal hcmp hInv,
      hpost.2.2.1 k', if_neg hk']

theorem claim8_witness :
    ∃ h', hashmap_put tHash cCmp wm (some 1) (some 99) = some (h', some 10) ∧
      hashmap_count h' = hashmap_count wm ∧
      hashmap_get tHash cCmp h' (some 1) = some 99 ∧
      (∀ k', k' ≠ 1 →
        hashmap_get tHash cCmp h' (some k') = hashmap_get tHash cCmp wm (some k')) ∧
      h'.arraySize = wm.arraySize ∧
      chainIds h' = chainIds wm ∧
      keyList h' = keyList wm :=
  claim8_replace_in_place cCmp_ok Inv_wm
    (show lookupEnt wm 1 = some ⟨some 1, some 10⟩ by decide) 99 (by decide)

/-- C9: after `Clear()` on any well-formed map the count reads exactly 0
and `Get` reports "not found" for every key (in particular every
previously present one). -/
theorem claim9_clear_empties {hash : K → Nat} {cmp : K → K → Int} {h : hashmap_t K V}
    (hInv : Inv hash h) :
    hashmap_count (hashmap_clear h) = 0 ∧
    ∀ key, hashmap_get hash cmp (hashmap_clear h) key = none :=
  ⟨hashmap_clear_count hInv, fun key => hashmap_clear_get hInv key⟩

theorem claim9_witness :
    hashmap_count (hashmap_clear wm) = 0 ∧
    ∀ key, hashmap_get tHash cCmp (hashmap_clear wm) key = none :=
  claim9_clear_empties Inv_wm

/-- C10: with no mutation in between, Peek and the immediately following
Next agree on every valid cursor: Peek succeeds and returns exactly the
key the following Next yields (so Peek is none iff Next is none), and in
the no-chain-pointer case Peek persistently advances the cursor's index
field to the first non-empty slot (`iterScan`) — it is not read-only. -/
theorem claim10_peek_next_agree {hash : K → Nat} {h : hashmap_t K V} (hInv : Inv hash h)
    {it : hashmap_iterator_t} (hwf : IterWF h it) :
    ∃ k₁ it₁ k₂ it₂,
      hashmap_iterator_peek h it = some (k₁, it₁) ∧
      hashmap_iterator_next h it₁ = some (k₂, it₂) ∧
      k₂ = k₁ ∧
      (it.cur_linked = none → it₁ = ⟨iterScan h it.cur, none⟩) := by
  rcases hwf with ⟨hnone, hle⟩ | ⟨l₁, n, l₂, hclt, hlink, hsplit⟩
  · obtain ⟨hcc', hc'le, hc'key, _⟩ := iterScan_props h h.arraySize it.cur (by omega)
    rcases Nat.eq_or_lt_of_le (hc'le hle) with heq | hlt
    · have hscan2 : iterScan h (iterScan h it.cur) = iterScan h it.cur := by
        rw [iterScan_eq, if_neg (by omega)]
      rw [heq] at hscan2
      have hpeek : hashmap_iterator_peek h it = some (none, ⟨iterScan h it.cur, none⟩) := by
        simp [hashmap_iterator_peek, hnone, heq]
      have hnext : hashmap_iterator_next h (⟨iterScan h it.cur, none⟩ : hashmap_iterator_t)
          = some (none, ⟨iterScan h it.cur, none⟩) := by
        simp [hashmap_iterator_next, hscan2, heq]
      exact ⟨none, ⟨iterScan h it.cur, none⟩, none, ⟨iterScan h it.cur, none⟩,
        hpeek, hnext, rfl, fun _ => rfl⟩
    · have hc'len : iterScan h it.cur < h.array.length := by rw [hInv.len_eq]; exact hlt
      have hget2 := getElem?_eq_slotAt h (iterScan h it.cur) hc'len
      have hkey := hc'key hlt
      obtain ⟨k0, hk0⟩ := Option.isSome_iff_exists.mp hkey
      have hpeek : hashmap_iterator_peek h it
          = some (some k0, ⟨iterScan h it.cur, none⟩) := by
        simp [hashmap_iterator_peek, hnone, hlt, hget2, hk0]
      have hscan2 : iterScan h (iterScan h it.cur) = iterScan h it.cur :=
        iterScan_is_id h _ hlt hkey hc'len
      cases hchain : (slotAt h (iterScan h it.cur)).chain with
      | nil =>
        have hnext : hashmap_iterator_next h
            (⟨iterScan h it.cur, none⟩ : hashmap_iterator_t)
            = some (some k0, ⟨iterScan h it.cur + 1, none⟩) := by
          simp [hashmap_iterator_next, hscan2, hget2, hchain, hk0, Nat.ne_of_lt hlt]
        exact ⟨some k0, ⟨iterScan h it.cur, none⟩, some k0,
          ⟨iterScan h it.cur + 1, none⟩, hpeek, hnext, rfl, fun _ => rfl⟩
      | cons nd tl =>
        have hnext : hashmap_iterator_next h
            (⟨iterScan h it.cur, none⟩ : hashmap_iterator_t)
            = some (some k0, ⟨iterScan h it.cur, some nd.id⟩) := by
          simp [hashmap_iterator_next, hscan2, hget2, hchain, hk0, Nat.ne_of_lt hlt]
        exact ⟨some k0, ⟨iterScan h it.cur, none⟩, some k0,
          ⟨iterScan h it.cur, some nd.id⟩, hpeek, hnext, rfl, fun _ => rfl⟩
  · have hclen : it.cur < h.array.length := by rw [hInv.len_eq]; exact hclt
    have hget2 := getElem?_eq_slotAt h it.cur hclen
    have hderef := derefNode_spec hInv hclen hsplit
    have hpeek : hashmap_iterator_peek h it = some (n.ety.key, it) := by
      simp [hashmap_iterator_peek, hlink, hderef]
    obtain ⟨hd, tl, hcons⟩ : ∃ hd tl, (slotAt h it.cur).chain = hd :: tl := by
      cases hch : (slotAt h it.cur).chain with
      | nil =>
        exfalso
        have hlb : (l₁ ++ n :: l₂).length = 0 := by
          rw [← hsplit, hch]
          rfl
        simp [List.length_append] at hlb
      | cons a b => exact ⟨a, b, rfl⟩
    have hnext : hashmap_iterator_next h it
        = some (n.ety.key,
            ⟨if (((l₂.head?).map (fun x => x.id)).isNone) then it.cur + 1 else it.cur,
             (l₂.head?).map (fun x => x.id)⟩) := by
      simp [hashmap_iterator_next, hlink, hget2, hcons, hderef]
    refine ⟨n.ety.key, it, n.ety.key,
      ⟨if (((l₂.head?).map (fun x => x.id)).isNone) then it.cur + 1 else it.cur,
       (l₂.head?).map (fun x => x.id)⟩, hpeek, hnext, rfl, ?_⟩
    intro hcnone
    rw [hlink] at hcnone
    exact Option.noConfusion hcnone

theorem claim10_witness :
    ∃ k₁ it₁ k₂ it₂,
      hashmap_iterator_peek wm hashmap_iterator_begin = some (k₁, it₁) ∧
      hashmap_iterator_next wm it₁ = some (k₂, it₂) ∧
      k₂ = k₁ ∧
      (hashmap_iterator_begin.cur_linked = none →
        it₁ = ⟨iterScan wm hashmap_iterator_begin.cur, none⟩) :=
  claim10_peek_next_agree Inv_wm (Or.inl ⟨rfl, by decide⟩)

end LinkedListHashmap
